import Mathlib

/-!
Verification development for the `athanor_factions` engine.

The Python sources (factions.py, managers.py, models.py, commands.py,
options.py, lockfuncs.py, __init__.py) are embedded shallowly:

* Python strings are lists of Unicode code points (`PyStr`); `str.lower`
  and `str.strip` are embedded on the ASCII fragment the data uses.
* Django rows (`FactionDB`, `Rank`, `Member`, `Invitation`) are structures
  collected in a `DB` state; queryset filters become list filters, foreign
  keys become ids, and `first()` becomes `head?`.
* The host lockstring checks (`FACTION_PERMISSIONS_ADMIN_OVERRIDE`,
  `FACTION_PERMISSIONS_ADMIN_MEMBERSHIP`) are the two capability flags on
  `Character`, exactly the external predicates of managers.py lines 69-74.
* Operations raise typed failures; `OpError` records the HTTP status kind
  set on the Operation (messages elided) together with the two Python
  runtime failures the sources actually hit (`AttributeError`,
  `IntegrityError`).
* Source recursions over the faction tree (`ancestors`,
  `contains_sub_faction`, `is_member`, `is_deleted`) terminate exactly on
  acyclic data; they are embedded with explicit fuel, instantiated large
  enough (`s.factions.length` or one more) to agree with the source on
  every acyclic state.
-/

/-- Python strings, modelled as lists of Unicode code points. -/
abbrev PyStr := List Nat

/-- Code points of a Lean string literal, for writing concrete Python strings. -/
def pystr (s : String) : PyStr := s.data.map Char.toNat

/-- ASCII whitespace code points (the fragment of Python whitespace the data uses). -/
def isSpaceCp (n : Nat) : Bool := n == 32 || (9 ≤ n && n ≤ 13)

/-- ASCII upper-case letters. -/
def isUpperCp (n : Nat) : Bool := 65 ≤ n && n ≤ 90

/-- Python `str.lower` on one code point (ASCII fragment). -/
def lowerCp (n : Nat) : Nat := if isUpperCp n then n + 32 else n

/-- Python `str.lower`. -/
def pyLower (s : PyStr) : PyStr := s.map lowerCp

/-- Python `str.strip`: drop leading and trailing whitespace. -/
def pyStrip (s : PyStr) : PyStr :=
  ((s.dropWhile isSpaceCp).reverse.dropWhile isSpaceCp).reverse

/-- The canonical form used throughout factions.py: `val.strip().lower()`. -/
def canonPerm (t : PyStr) : PyStr := pyLower (pyStrip t)

/-- Python `str.split(sep)`: always yields at least one (possibly empty) piece. -/
def splitCp (sep : Nat) : PyStr → List PyStr
  | [] => [[]]
  | c :: rest =>
    match splitCp sep rest with
    | [] => if c == sep then [[], []] else [[c]]
    | h :: t => if c == sep then [] :: h :: t else (c :: h) :: t

/-- An actor.  The two flags are the host-supplied capability predicates of
managers.py lines 69-74: passing `settings.FACTION_PERMISSIONS_ADMIN_OVERRIDE`
resp. `settings.FACTION_PERMISSIONS_ADMIN_MEMBERSHIP`. -/
structure Character where
  id : Nat
  override : Bool
  adminMember : Bool
deriving DecidableEq

/-- The per-faction option block (`settings.OPTIONS_FACTION_DEFAULT`, __init__.py). -/
structure FactionOptions where
  universal_permissions : Finset PyStr
  permissions : Finset PyStr
  sub_permissions : Finset PyStr
  start_rank : Int
deriving DecidableEq

/-- One `FactionDB` row (models.py): key, nullable parent FK, soft-delete flag. -/
structure Faction where
  id : Nat
  key : PyStr
  parent : Option Nat
  deleted : Bool
  options : FactionOptions
deriving DecidableEq

/-- One `Rank` row (models.py): faction FK, name, number, `data["permissions"]`. -/
structure Rank where
  id : Nat
  faction : Nat
  name : PyStr
  number : Int
  permissions : Finset PyStr
deriving DecidableEq

/-- One `Member` row (models.py): character FK, rank FK, `data["permissions"]`. -/
structure Member where
  id : Nat
  character : Nat
  rank : Nat
  permissions : Finset PyStr
deriving DecidableEq

/-- One `Invitation` row (models.py).  The `inviter` column is a non-nullable
foreign key; `none` models the in-memory value before it is supplied. -/
structure Invitation where
  id : Nat
  character : Nat
  faction : Nat
  inviter : Option Nat
deriving DecidableEq

/-- The database state. -/
structure DB where
  factions : List Faction
  ranks : List Rank
  members : List Member
  invitations : List Invitation
  nextFactionId : Nat
  nextRankId : Nat
  nextMemberId : Nat
  nextInvitationId : Nat
deriving DecidableEq

/-- Failure kinds: the HTTP statuses set on the Operation (managers.py; messages
elided) plus the Python runtime errors the sources raise. -/
inductive OpError where
  | badRequest
  | forbidden
  | notFound
  | attributeError
  | integrityError
deriving DecidableEq

instance {ε α : Type} [DecidableEq ε] [DecidableEq α] : DecidableEq (Except ε α) := fun a b =>
  match a, b with
  | .ok x, .ok y =>
    if h : x = y then .isTrue (by rw [h]) else .isFalse (fun hh => h (Except.ok.inj hh))
  | .error x, .error y =>
    if h : x = y then .isTrue (by rw [h]) else .isFalse (fun hh => h (Except.error.inj hh))
  | .ok _, .error _ => .isFalse (fun hh => Except.noConfusion hh)
  | .error _, .ok _ => .isFalse (fun hh => Except.noConfusion hh)

def lookupFaction (s : DB) (fid : Nat) : Option Faction :=
  s.factions.find? (fun f => f.id == fid)

def lookupRank (s : DB) (rid : Nat) : Option Rank :=
  s.ranks.find? (fun r => r.id == rid)

/-- Factions whose `db_parent` is the given faction (`self.children.all()`). -/
def childrenOf (s : DB) (fid : Nat) : List Faction :=
  s.factions.filter (fun f => f.parent == some fid)

/-- Root factions (`self.filter(db_parent=None)`). -/
def rootFactions (s : DB) : List Faction :=
  s.factions.filter (fun f => f.parent == none)

/-- "`Member.objects.filter(character=character, rank__faction=self)`": member rows
of a character joined with their rank, restricted to one faction. -/
def memberRows (s : DB) (fid cid : Nat) : List (Member × Rank) :=
  s.members.filterMap (fun m =>
    match lookupRank s m.rank with
    | some r => if m.character == cid && r.faction == fid then some (m, r) else none
    | none => none)

/-- "`rank.holders`" (models.py, related name on `Member.rank`). -/
def holders (s : DB) (rid : Nat) : List Member :=
  s.members.filter (fun m => m.rank == rid)

/-- "`faction.ranks`" (models.py, related name on `Rank.faction`). -/
def factionRanks (s : DB) (fid : Nat) : List Rank :=
  s.ranks.filter (fun r => r.faction == fid)

/-- "`faction.invitations.filter(character=character)`". -/
def invitationsFor (s : DB) (fid cid : Nat) : List Invitation :=
  s.invitations.filter (fun i => i.faction == fid && i.character == cid)

/-- Parent id of a faction row, if any. -/
def parentOf (s : DB) (fid : Nat) : Option Nat :=
  (lookupFaction s fid).bind (fun f => f.parent)

/-- `settings.FACTION_PERMISSIONS_BUILTIN` (__init__.py line 12). -/
def FACTION_PERMISSIONS_BUILTIN : Finset PyStr :=
  {pystr "roster", pystr "invite", pystr "discipline"}

/-- Default option block of a new faction (`settings.OPTIONS_FACTION_DEFAULT`,
__init__.py lines 14-19: empty permission sets, start rank 5). -/
def DEFAULT_OPTIONS : FactionOptions :=
  { universal_permissions := ∅, permissions := ∅, sub_permissions := ∅, start_rank := 5 }

/-- `settings.FACTION_DEFAULT_RANKS` (__init__.py lines 37-43): number, name and
seed permissions of the five default ranks.  (In the source, `at_first_save`
pops the name out of this settings dict, so creations after the first would
seed empty names; the claims below depend only on the numbers, which are
unaffected.) -/
def FACTION_DEFAULT_RANKS : List (Int × PyStr × Finset PyStr) :=
  [(1, pystr "Leader", {pystr "roster", pystr "invite", pystr "discipline"}),
   (2, pystr "Second", {pystr "roster", pystr "invite", pystr "discipline"}),
   (3, pystr "Officer", {pystr "invite", pystr "discipline"}),
   (4, pystr "Member", ∅),
   (5, pystr "Recruit", ∅)]

namespace FactionDBManager

/-- managers.py lines 69-70. -/
def check_override (ch : Character) : Bool := ch.override

/-- managers.py lines 72-74. -/
def check_admin (ch : Character) : Bool := ch.adminMember || check_override ch

end FactionDBManager

namespace DefaultFaction

/-- factions.py lines 35-38: the ancestor chain, walked through parent pointers.
The source recursion terminates exactly on acyclic data; the fuel below is
instantiated at `s.factions.length`, which covers every acyclic chain. -/
def ancestorIds (s : DB) : Nat → Nat → List Nat
  | 0, _ => []
  | fuel + 1, fid =>
    match parentOf s fid with
    | none => []
    | some p => p :: ancestorIds s fuel p

/-- factions.py lines 27-33: recursive subtree containment test.  `target` is
`some id` for a faction argument and `none` for Python `None` (in which case
the walk visits the whole subtree and returns `False`, as the source does). -/
def contains_sub_faction (s : DB) : Nat → Nat → Option Nat → Bool
  | 0, _, _ => false
  | fuel + 1, fid, target =>
    (childrenOf s fid).any (fun c =>
      some c.id == target || contains_sub_faction s fuel c.id target)

/-- factions.py lines 46-51: a faction is deleted if its own flag is set or any
ancestor is deleted.  The parent lookup is a foreign key and always resolves in
the source; a dangling id yields `false` here. -/
def is_deleted (s : DB) : Nat → Faction → Bool
  | 0, f => f.deleted
  | fuel + 1, f =>
    if f.deleted then true
    else
      match f.parent with
      | none => false
      | some pid =>
        match lookupFaction s pid with
        | some pf => is_deleted s fuel pf
        | none => false

/-- factions.py lines 84-86: the recursive child walk of `is_member`
(performed with `check_admin=False`). -/
def member_below (s : DB) (cid : Nat) : Nat → Nat → Bool
  | 0, _ => false
  | fuel + 1, fid =>
    !(memberRows s fid cid).isEmpty ||
      (childrenOf s fid).any (fun c => member_below s cid fuel c.id)

/-- factions.py lines 78-87. -/
def is_member (s : DB) (f : Faction) (ch : Character) : Bool :=
  FactionDBManager.check_admin ch || member_below s ch.id (s.factions.length + 1) f.id

/-- factions.py lines 89-94: `0` for admins, else the stored rank number of the
first matching member row, else `None`. -/
def get_effective_rank (s : DB) (f : Faction) (ch : Character) : Option Int :=
  if FactionDBManager.check_admin ch then some 0
  else ((memberRows s f.id ch.id).head?).map (fun p => p.2.number)

/-- factions.py lines 96-100. -/
def is_leader (s : DB) (f : Faction) (ch : Character) : Bool :=
  match get_effective_rank s f ch with
  | none => false
  | some r => decide (r ≤ 1)

/-- factions.py lines 102-106: union the given sets, then keep the truthy
canonical forms `val.strip().lower()`. -/
def join_permissions (perm_sets : List (Finset PyStr)) : Finset PyStr :=
  ((perm_sets.foldl (fun a b => a ∪ b) ∅).image canonPerm).filter (fun t => t ≠ [])

/-- factions.py lines 108-110. -/
def all_permissions (f : Faction) : Finset PyStr :=
  join_permissions [f.options.permissions, FACTION_PERMISSIONS_BUILTIN]

/-- Modelled from the spec: `DefaultFaction.is_sub_member` is called at
factions.py line 129 but defined nowhere in this repository.  Spec §4.3 and
glossary: a sub-member is an actor who is not a member of this faction but is
a member of some strict descendant faction. -/
def is_sub_member (s : DB) (f : Faction) (ch : Character) : Bool :=
  (memberRows s f.id ch.id).isEmpty &&
    (childrenOf s f.id).any (fun c => member_below s ch.id (s.factions.length + 1) c.id)

/-- factions.py lines 112-132. -/
def get_effective_permissions (s : DB) (f : Faction) (ch : Character) : Finset PyStr :=
  let allp := all_permissions f
  if FactionDBManager.check_admin ch then allp
  else
    match (memberRows s f.id ch.id).head? with
    | some (m, r) =>
      if r.number ≤ 1 then allp
      else
        join_permissions
          ([f.options.universal_permissions]
            ++ (if r.permissions ≠ ∅ then [r.permissions] else [])
            ++ (if m.permissions ≠ ∅ then [m.permissions] else [])) ∩ allp
    | none =>
      if is_sub_member s f ch then
        join_permissions [f.options.sub_permissions] ∩ allp
      else ∅

/-- factions.py lines 134-141. -/
def has_permission (s : DB) (f : Faction) (ch : Character) (perm : PyStr) : Bool :=
  match get_effective_rank s f ch with
  | none => false
  | some r =>
    if r ≤ 1 then true
    else decide (canonPerm perm ∈ get_effective_permissions s f ch)

end DefaultFaction

/-- The value found under a faction-resolving kwargs key (managers.py lines
12-57): a model instance, a string path, an integer id, or something else. -/
inductive FactionInput where
  | byRef (f : Faction)
  | byPath (p : PyStr)
  | byId (n : Nat)
  | invalid
deriving DecidableEq

/-- Modelled from the spec: `athanor.utils.partial_match` is external to this
repository.  Spec §4.1: a segment "is matched by case-insensitive,
unambiguous-prefix match" and "An empty or unresolvable segment, or a segment
ambiguous between two or more candidates, fails".  So: the unique candidate
whose key has the text as a case-insensitive prefix; empty text, no candidate,
or several candidates yield none. -/
def pmatch (text : PyStr) (choices : List Faction) : Option Faction :=
  if text = [] then none
  else
    match choices.filter (fun f => (pyLower text).isPrefixOf (pyLower f.key)) with
    | [c] => some c
    | _ => none

namespace FactionDBManager

/-- managers.py lines 36-48: the `while rest` loop of `find_faction`. -/
def resolve_rest (s : DB) : List PyStr → Faction → Except OpError Faction
  | [], c => .ok c
  | seg :: rest, c =>
    let choices := childrenOf s c.id
    if choices.isEmpty then .error .notFound
    else
      match pmatch seg choices with
      | none => .error .notFound
      | some c2 => resolve_rest s rest c2

/-- managers.py lines 12-63: `find_faction`.  Note that no branch filters on
`db_deleted`: a model instance is returned as given, an id lookup returns the
row whatever its flag, and path resolution searches all roots and children. -/
def find_faction (s : DB) (input : Option FactionInput) : Except OpError Faction :=
  match input with
  | none => .error .badRequest
  | some (.byRef f) => .ok f
  | some (.byPath p) =>
    match splitCp 47 p with
    | [] => .error .badRequest
    | start :: rest =>
      let choices := rootFactions s
      if choices.isEmpty then .error .notFound
      else
        match pmatch start choices with
        | none => .error .notFound
        | some c => resolve_rest s rest c
  | some (.byId n) =>
    match s.factions.find? (fun f => f.id == n) with
    | some f => .ok f
    | none => .error .notFound
  | some .invalid => .error .badRequest

/-- Modelled from the spec: `athanor.utils.validate_name` is external to this
repository; managers.py lines 76-84 fail `400` when it yields nothing.  A
name must be provided and nonempty. -/
def validate_name (n : Option PyStr) : Except OpError PyStr :=
  match n with
  | none => .error .badRequest
  | some t => if t = [] then .error .badRequest else .ok t

/-- factions.py lines 22-25: `at_first_save` installs the default rank ladder. -/
def at_first_save (s : DB) (fid : Nat) : DB :=
  FACTION_DEFAULT_RANKS.foldl (fun st rd =>
    { st with
      ranks := st.ranks ++
        [{ id := st.nextRankId, faction := fid, name := rd.2.1,
           number := rd.1, permissions := rd.2.2 }],
      nextRankId := st.nextRankId + 1 }) s

/-- managers.py lines 86-105: `op_create`.  The sibling-collision check is a
case-insensitive key match under the same parent (deleted rows included) and
fails with status 400. -/
def op_create (s : DB) (actor : Character) (nameInput : Option PyStr)
    (parentInput : Option (Option FactionInput)) : Except OpError (DB × Nat) :=
  if !check_override actor then .error .forbidden
  else
    match validate_name nameInput with
    | .error e => .error e
    | .ok name =>
      match (match parentInput with
             | none => Except.ok (none : Option Faction)
             | some pin =>
               match find_faction s pin with
               | .error e => Except.error e
               | .ok pf => Except.ok (some pf)) with
      | .error e => .error e
      | .ok parent =>
        if ((s.factions.filter (fun f =>
              pyLower f.key == pyLower name && f.parent == parent.map Faction.id)).head?).isSome
        then .error .badRequest
        else
          let fid := s.nextFactionId
          let f : Faction :=
            { id := fid, key := name, parent := parent.map Faction.id,
              deleted := false, options := DEFAULT_OPTIONS }
          .ok (at_first_save { s with factions := s.factions ++ [f], nextFactionId := fid + 1 } fid, fid)

/-- managers.py lines 107-123: `op_rename`. -/
def op_rename (s : DB) (actor : Character) (factionInput : Option FactionInput)
    (nameInput : Option PyStr) : Except OpError DB :=
  if !check_override actor then .error .forbidden
  else
    match find_faction s factionInput with
    | .error e => .error e
    | .ok faction =>
      match validate_name nameInput with
      | .error e => .error e
      | .ok name =>
        if ((s.factions.filter (fun f =>
              f.parent == faction.parent && pyLower f.key == pyLower name
                && !(f.id == faction.id))).head?).isSome
        then .error .badRequest
        else
          .ok { s with factions := s.factions.map (fun g =>
                  if g.id == faction.id then { g with key := name } else g) }

/-- The single pointer swap at managers.py line 152. -/
def setParent (s : DB) (fid : Nat) (p : Option Nat) : DB :=
  { s with factions := s.factions.map (fun g =>
      if g.id == fid then { g with parent := p } else g) }

/-- managers.py lines 125-156: `op_parent`.  The raw kwargs value `"/"` means
detach to root; otherwise the parent is resolved like any faction.  Checks in
source order: self-parent, ancestor cycle, descendant containment. -/
def op_parent (s : DB) (actor : Character) (factionInput parentInput : Option FactionInput) :
    Except OpError DB :=
  if !check_override actor then .error .forbidden
  else
    match find_faction s factionInput with
    | .error e => .error e
    | .ok faction =>
      match (if parentInput = some (.byPath (pystr "/")) then Except.ok (none : Option Faction)
             else
               match find_faction s parentInput with
               | .error e => Except.error e
               | .ok pf => Except.ok (some pf)) with
      | .error e => .error e
      | .ok parent =>
        if (match parent with
            | some pf => pf.id == faction.id
            | none => false) then .error .badRequest
        else if (match parent with
            | some pf => decide (faction.id ∈ DefaultFaction.ancestorIds s s.factions.length pf.id)
            | none => false) then .error .badRequest
        else if DefaultFaction.contains_sub_faction s (s.factions.length + 1) faction.id
                  (parent.map Faction.id) then .error .badRequest
        else .ok (setParent s faction.id (parent.map Faction.id))

end FactionDBManager

namespace RankManager

/-- managers.py lines 237-248: falsy check then int conversion.  Inputs are
modelled as already-converted integers, so the falsy check rejects a missing
value and the number 0. -/
def _validate_rank (v : Option Int) : Except OpError Int :=
  match v with
  | none => .error .badRequest
  | some r => if r = 0 then .error .badRequest else .ok r

/-- managers.py lines 279-284: `find_rank` resolves a rank number within a
faction, status 400 when absent. -/
def find_rank (s : DB) (fid : Nat) (v : Option Int) : Except OpError Rank :=
  match _validate_rank v with
  | .error e => .error e
  | .ok n =>
    match ((factionRanks s fid).filter (fun r => r.number == n)).head? with
    | some r => .ok r
    | none => .error .badRequest

/-- managers.py lines 306-324: `op_number` renumbers a rank.  There is no
protection for numbers 1 and 2 here: any rank, including rank 1 or 2, can be
renumbered to any free nonzero number. -/
def op_number (s : DB) (actingChar : Character) (factionInput : Option FactionInput)
    (rankInput newNumberInput : Option Int) : Except OpError DB :=
  match FactionDBManager.find_faction s factionInput with
  | .error e => .error e
  | .ok faction =>
    if !DefaultFaction.is_leader s faction actingChar then .error .forbidden
    else
      match find_rank s faction.id rankInput with
      | .error e => .error e
      | .ok rank =>
        match _validate_rank newNumberInput with
        | .error e => .error e
        | .ok new_rank =>
          if (((factionRanks s faction.id).filter (fun r => r.number == new_rank)).head?).isSome
          then .error .badRequest
          else
            .ok { s with ranks := s.ranks.map (fun r =>
                    if r.id == rank.id then { r with number := new_rank } else r) }

/-- managers.py lines 326-345: `op_delete` refuses numbers at most 2 and ranks
with holders, both with status 400, then deletes the row. -/
def op_delete (s : DB) (actingChar : Character) (factionInput : Option FactionInput)
    (rankInput : Option Int) : Except OpError DB :=
  match FactionDBManager.find_faction s factionInput with
  | .error e => .error e
  | .ok faction =>
    if !DefaultFaction.is_leader s faction actingChar then .error .forbidden
    else
      match find_rank s faction.id rankInput with
      | .error e => .error e
      | .ok rank =>
        if rank.number ≤ 2 then .error .badRequest
        else if !(holders s rank.id).isEmpty then .error .badRequest
        else .ok { s with ranks := s.ranks.filter (fun r => !(r.id == rank.id)) }

end RankManager

namespace MemberManager

/-- managers.py lines 444-464: `op_remove`.  After the permission gate, line 450
runs `character = self.find_character("character")`, passing the string
`"character"` where an `Operation` is expected; `"character".kwargs` does not
exist, so Python raises `AttributeError` unconditionally.  (Were that fixed,
line 452 `faction.members` has no such related name, and line 457
`rank.number` dereferences the bare int returned by `get_effective_rank`.) -/
def op_remove (s : DB) (actingChar : Character) (factionInput : Option FactionInput) :
    Except OpError Unit :=
  match FactionDBManager.find_faction s factionInput with
  | .error e => .error e
  | .ok faction =>
    if !DefaultFaction.has_permission s faction actingChar (pystr "roster") then .error .forbidden
    else .error .attributeError

/-- managers.py lines 466-494: `op_rank`.  Identical failure shape to
`op_remove`: line 472 `self.find_character("character")` raises
`AttributeError` right after the permission gate (and lines 474 and 482
would raise on `faction.members` and `actor_rank.number` respectively). -/
def op_rank (s : DB) (actingChar : Character) (factionInput : Option FactionInput) :
    Except OpError Unit :=
  match FactionDBManager.find_faction s factionInput with
  | .error e => .error e
  | .ok faction =>
    if !DefaultFaction.has_permission s faction actingChar (pystr "roster") then .error .forbidden
    else .error .attributeError

end MemberManager

namespace InvitationManager

/-- managers.py lines 563-570: `find_character` — a character must be provided
(typed inputs make the isinstance check vacuous here). -/
def find_character (chInput : Option Character) : Except OpError Character :=
  match chInput with
  | none => .error .badRequest
  | some c => .ok c

/-- managers.py lines 572-593: `op_extend`.  After resolving the faction, the
permission gate and `find_character`, line 580 reads `faction.members` — but
models.py gives `FactionDB` no such related name (`Member` has no faction
foreign key; its relations are named `faction_ranks` and `holders`), so
Python raises `AttributeError`.  (Were that fixed, line 588
`faction.invitations.create(character=character)` omits the non-nullable
`inviter` foreign key and the INSERT raises `IntegrityError`.) -/
def op_extend (s : DB) (actingChar : Character) (factionInput : Option FactionInput)
    (chInput : Option Character) : Except OpError DB :=
  match FactionDBManager.find_faction s factionInput with
  | .error e => .error e
  | .ok faction =>
    if !DefaultFaction.has_permission s faction actingChar (pystr "invite") then .error .forbidden
    else
      match find_character chInput with
      | .error e => .error e
      | .ok _ => .error .attributeError

/-- managers.py lines 618-641: `op_accept`.  The invitation lookup works
(`faction.invitations` is a real related name) and fails with status 400 when
no invitation exists; with an invitation present, line 626 reads
`faction.members`, which raises `AttributeError` as in `op_extend`, so no
member is ever created and the invitation is never consumed. -/
def op_accept (s : DB) (actingChar : Character) (factionInput : Option FactionInput) :
    Except OpError DB :=
  match FactionDBManager.find_faction s factionInput with
  | .error e => .error e
  | .ok faction =>
    match (invitationsFor s faction.id actingChar.id).head? with
    | none => .error .badRequest
    | some _ => .error .attributeError

end InvitationManager

/-- The operation handlers `FactionDBManager` actually defines (managers.py:
its methods named `op_<operation>`). -/
def factionManagerOperations : List String :=
  ["find_faction", "create", "rename", "parent", "config_set", "config_list", "list"]

/-- The operation name `CmdFDelete.func` dispatches to `FactionDBManager`
(commands.py line 138). -/
def cmdFDeleteOperation : String := "delete"

/-- Iterated parent pointer: follow `db_parent` exactly `k` times. -/
def iterP (s : DB) : Nat → Nat → Option Nat
  | 0, fid => some fid
  | k + 1, fid =>
    match parentOf s fid with
    | none => none
    | some p => iterP s k p

/-- No faction is its own transitive ancestor: following parent pointers any
positive number of times never returns to the start. -/
def Acyclic (s : DB) : Prop := ∀ k fid, 0 < k → iterP s k fid ≠ some fid

/-- Database well-formedness: distinct faction ids, parent foreign keys resolve
to stored rows, and every id is below the id counter. -/
def WF (s : DB) : Prop :=
  (s.factions.map Faction.id).Nodup
    ∧ (∀ f ∈ s.factions, ∀ p, f.parent = some p → p ∈ s.factions.map Faction.id)
    ∧ (∀ f ∈ s.factions, f.id < s.nextFactionId)

instance (s : DB) : Decidable (WF s) := by
  unfold WF
  infer_instance

/-- A kwargs faction value is well formed when a passed model instance is a
stored row (Django hands managed instances to handlers). -/
def inputOK (s : DB) : Option FactionInput → Prop
  | some (.byRef f) => f ∈ s.factions
  | _ => True

/-- One successful structural mutation of the faction tree through a
`FactionDBManager` operation (`create`, `rename`, `parent`; the spec's faction
`delete` has no handler in managers.py, so no step corresponds to it, and no
other operation touches `db_parent` or creates factions). -/
inductive FactionStep : DB → DB → Prop where
  | create : ∀ s actor nameInput parentInput s2 fid,
      (∀ pin, parentInput = some pin → inputOK s pin) →
      FactionDBManager.op_create s actor nameInput parentInput = .ok (s2, fid) →
      FactionStep s s2
  | rename : ∀ s actor factionInput nameInput s2,
      FactionDBManager.op_rename s actor factionInput nameInput = .ok s2 →
      FactionStep s s2
  | reparent : ∀ s actor factionInput parentInput s2,
      inputOK s factionInput → inputOK s parentInput →
      FactionDBManager.op_parent s actor factionInput parentInput = .ok s2 →
      FactionStep s s2

/-- The spec's description of path resolution (§4.1), written as a monadic fold:
split on `/`, match the first segment among the roots and each later segment
among the current faction's children, by case-insensitive unambiguous-prefix
match.  Used to compare the source's `find_faction` loop against the spec. -/
def resolveSpecPath (s : DB) (p : PyStr) : Option Faction :=
  match splitCp 47 p with
  | [] => none
  | first :: rest =>
    (pmatch first (rootFactions s)).bind (fun c =>
      rest.foldlM (fun cur seg => pmatch seg (childrenOf s cur.id)) c)

/-- A canonical permission token: nonempty, no upper-case letter, and no
leading or trailing whitespace. -/
def isCanonToken (t : PyStr) : Prop :=
  t ≠ [] ∧ (∀ c ∈ t, isUpperCp c = false)
    ∧ (∀ c, t.head? = some c → isSpaceCp c = false)
    ∧ (∀ c, t.getLast? = some c → isSpaceCp c = false)

/-! Concrete states used by witnesses and counterexamples. -/

/-- An empty database. -/
def dbEmpty : DB :=
  { factions := [], ranks := [], members := [], invitations := [],
    nextFactionId := 0, nextRankId := 0, nextMemberId := 0, nextInvitationId := 0 }

/-- An actor passing both capability lockstrings. -/
def adminChar : Character := { id := 9, override := true, adminMember := true }

/-- An ordinary actor passing neither capability lockstring. -/
def plainChar : Character := { id := 7, override := false, adminMember := false }

/-- Options granting `invite` to sub-members. -/
def subOpts : FactionOptions :=
  { universal_permissions := ∅, permissions := ∅,
    sub_permissions := {pystr "invite"}, start_rank := 5 }

/-- Root faction whose sub-permissions contain `invite`. -/
def facTop : Faction :=
  { id := 0, key := pystr "Alpha", parent := none, deleted := false, options := subOpts }

/-- Child faction of `facTop`. -/
def facSub : Faction :=
  { id := 1, key := pystr "Beta", parent := some 0, deleted := false, options := DEFAULT_OPTIONS }

/-- A rank of `facSub`. -/
def rkRecruit : Rank :=
  { id := 0, faction := 1, name := pystr "Recruit", number := 5, permissions := ∅ }

/-- `plainChar` holds `rkRecruit` in `facSub`. -/
def memSub : Member := { id := 0, character := 7, rank := 0, permissions := ∅ }

/-- State with a parent faction, a child faction, and a member of the child:
`plainChar` is a sub-member of `facTop`. -/
def dbSub : DB :=
  { factions := [facTop, facSub], ranks := [rkRecruit], members := [memSub], invitations := [],
    nextFactionId := 2, nextRankId := 1, nextMemberId := 1, nextInvitationId := 1 }

/-- A soft-deleted root faction. -/
def facGhost : Faction :=
  { id := 0, key := pystr "Ghost", parent := none, deleted := true, options := DEFAULT_OPTIONS }

/-- A live child faction under the soft-deleted `facGhost`. -/
def facGhostChild : Faction :=
  { id := 1, key := pystr "Haunt", parent := some 0, deleted := false, options := DEFAULT_OPTIONS }

/-- State holding the soft-deleted `facGhost` and its live child. -/
def dbGhost : DB :=
  { factions := [facGhost, facGhostChild], ranks := [], members := [], invitations := [],
    nextFactionId := 2, nextRankId := 0, nextMemberId := 0, nextInvitationId := 0 }

/-- An invitation of `plainChar` to `facTop` (inviter supplied, as a stored row
would have it). -/
def invTop : Invitation := { id := 0, character := 7, faction := 0, inviter := some 9 }

/-- `dbSub` plus a pending invitation of `plainChar` to `facTop`. -/
def dbInv : DB :=
  { factions := [facTop, facSub], ranks := [rkRecruit], members := [memSub],
    invitations := [invTop],
    nextFactionId := 2, nextRankId := 1, nextMemberId := 1, nextInvitationId := 1 }

/-- Rank 2 of `facTop`, with no holders. -/
def rkSecond : Rank :=
  { id := 1, faction := 0, name := pystr "Second", number := 2, permissions := ∅ }

/-- Rank 3 of `facTop`, held by `memHold`. -/
def rkOfficer : Rank :=
  { id := 2, faction := 0, name := pystr "Officer", number := 3, permissions := ∅ }

/-- A member of `facTop` holding `rkOfficer`. -/
def memHold : Member := { id := 1, character := 8, rank := 2, permissions := ∅ }

/-- State for the rank-deletion witnesses: `facTop` with ranks 2 and 3, the
latter held. -/
def dbRanks : DB :=
  { factions := [facTop], ranks := [rkSecond, rkOfficer], members := [memHold], invitations := [],
    nextFactionId := 1, nextRankId := 3, nextMemberId := 2, nextInvitationId := 0 }

/-- The state `op_create` produces from `dbEmpty` for name `Alpha`: the faction
plus the five default ranks. -/
def db6 : DB :=
  { factions := [{ id := 0, key := pystr "Alpha", parent := none, deleted := false,
                   options := DEFAULT_OPTIONS }],
    ranks := [{ id := 0, faction := 0, name := pystr "Leader", number := 1,
                permissions := {pystr "roster", pystr "invite", pystr "discipline"} },
              { id := 1, faction := 0, name := pystr "Second", number := 2,
                permissions := {pystr "roster", pystr "invite", pystr "discipline"} },
              { id := 2, faction := 0, name := pystr "Officer", number := 3,
                permissions := {pystr "invite", pystr "discipline"} },
              { id := 3, faction := 0, name := pystr "Member", number := 4, permissions := ∅ },
              { id := 4, faction := 0, name := pystr "Recruit", number := 5, permissions := ∅ }],
    members := [], invitations := [],
    nextFactionId := 1, nextRankId := 5, nextMemberId := 0, nextInvitationId := 0 }

/-! Claim theorems: the permission resolver (C9, C2) and the operations whose
authorization path raises before acting (C1, C5, C4), the missing faction
delete (C8), and the resolution and rank counterexamples (C3, C6). -/

/-- C9: for every faction and every actor holding the global override
capability or the tree-wide admin-membership capability, the effective rank is
0 and the effective permission set equals the faction's full permission set,
regardless of any stored membership, rank, or override data. -/
theorem admin_effective_rank_and_permissions (s : DB) (f : Faction) (ch : Character)
    (h : FactionDBManager.check_override ch = true ∨ ch.adminMember = true) :
    DefaultFaction.get_effective_rank s f ch = some 0 ∧
      DefaultFaction.get_effective_permissions s f ch = DefaultFaction.all_permissions f := by
  have hadm : FactionDBManager.check_admin ch = true := by
    cases h with
    | inl h2 => simp [FactionDBManager.check_admin, h2]
    | inr h2 => simp [FactionDBManager.check_admin, h2]
  constructor
  · simp [DefaultFaction.get_effective_rank, hadm]
  · simp [DefaultFaction.get_effective_permissions, hadm]

/-- Witness for C9 at a concrete state and actor. -/
theorem admin_effective_rank_and_permissions_witness :
    DefaultFaction.get_effective_rank dbSub facTop adminChar = some 0 ∧
      DefaultFaction.get_effective_permissions dbSub facTop adminChar =
        DefaultFaction.all_permissions facTop :=
  admin_effective_rank_and_permissions dbSub facTop adminChar (Or.inl (by decide))

/-- C2 counterexample: `plainChar` is a sub-member of `facTop` and the token
`invite` lies in `subPermissions ∩ allPermissions` (it is the sub-member
effective permission set), yet `has_permission` is false, because the
effective rank of a non-member is `None` and factions.py line 137 returns
`False` before consulting the permission set. -/
theorem sub_member_has_permission_counterexample :
    DefaultFaction.is_sub_member dbSub facTop plainChar = true
    ∧ DefaultFaction.get_effective_permissions dbSub facTop plainChar = {pystr "invite"}
    ∧ pystr "invite" ∈ DefaultFaction.get_effective_permissions dbSub facTop plainChar
    ∧ DefaultFaction.has_permission dbSub facTop plainChar (pystr "invite") = false := by
  decide

/-- C2 (amended): `has_permission` is false whenever the effective rank is
`None` — in particular for sub-members, whatever their effective permission
set; it is true whenever the effective rank is at most 1 (so for ranks 0 and
1); otherwise it is true exactly when the stripped, lower-cased token is in
the effective permission set. -/
theorem has_permission_characterization (s : DB) (f : Faction) (ch : Character) (t : PyStr) :
    (DefaultFaction.get_effective_rank s f ch = none →
      DefaultFaction.has_permission s f ch t = false)
    ∧ (∀ r, DefaultFaction.get_effective_rank s f ch = some r → r ≤ 1 →
        DefaultFaction.has_permission s f ch t = true)
    ∧ (∀ r, DefaultFaction.get_effective_rank s f ch = some r → 1 < r →
        (DefaultFaction.has_permission s f ch t = true ↔
          canonPerm t ∈ DefaultFaction.get_effective_permissions s f ch)) := by
  refine ⟨?_, ?_, ?_⟩
  · intro h
    unfold DefaultFaction.has_permission
    rw [h]
  · intro r h hr
    unfold DefaultFaction.has_permission
    rw [h]
    simp [hr]
  · intro r h hr
    unfold DefaultFaction.has_permission
    rw [h]
    simp [not_le.mpr hr]

/-- Witness for C2 (amended) at concrete inputs: the `None`-rank clause at the
sub-member state, and the leader clause for an admin actor. -/
theorem has_permission_characterization_witness :
    DefaultFaction.has_permission dbSub facTop plainChar (pystr "roster") = false
    ∧ DefaultFaction.has_permission dbSub facTop adminChar (pystr "zzz") = true :=
  ⟨(has_permission_characterization dbSub facTop plainChar (pystr "roster")).1 (by decide),
   (has_permission_characterization dbSub facTop adminChar (pystr "zzz")).2.1 0 (by decide)
     (by decide)⟩

/-- C1: the member rank-change operation `op_rank` never reaches the rank
comparison the claim describes: after the `roster` permission gate it always
raises `AttributeError` (managers.py line 472 passes the string `"character"`
where an Operation is expected), and it never returns success for any input. -/
theorem op_rank_always_raises (s : DB) (ch : Character) (inp : Option FactionInput) :
    (∀ f, FactionDBManager.find_faction s inp = .ok f →
      DefaultFaction.has_permission s f ch (pystr "roster") = true →
      MemberManager.op_rank s ch inp = .error .attributeError)
    ∧ (∀ u, MemberManager.op_rank s ch inp ≠ .ok u) := by
  constructor
  · intro f hf hperm
    unfold MemberManager.op_rank
    rw [hf]
    simp [hperm]
  · intro u
    unfold MemberManager.op_rank
    cases hf : FactionDBManager.find_faction s inp with
    | error e => simp
    | ok f =>
      by_cases hp : DefaultFaction.has_permission s f ch (pystr "roster") <;> simp [hp]

/-- Witness for C1: a leader-capable actor on a concrete state. -/
theorem op_rank_always_raises_witness :
    MemberManager.op_rank dbSub adminChar (some (.byRef facTop)) = .error .attributeError :=
  (op_rank_always_raises dbSub adminChar (some (.byRef facTop))).1 facTop (by decide) (by decide)

/-- C5: the member removal operation `op_remove` never reaches the authority
comparison the claim describes: after the `roster` permission gate it always
raises `AttributeError` (managers.py line 450 passes the string `"character"`
where an Operation is expected), and it never returns success for any input. -/
theorem op_remove_always_raises (s : DB) (ch : Character) (inp : Option FactionInput) :
    (∀ f, FactionDBManager.find_faction s inp = .ok f →
      DefaultFaction.has_permission s f ch (pystr "roster") = true →
      MemberManager.op_remove s ch inp = .error .attributeError)
    ∧ (∀ u, MemberManager.op_remove s ch inp ≠ .ok u) := by
  constructor
  · intro f hf hperm
    unfold MemberManager.op_remove
    rw [hf]
    simp [hperm]
  · intro u
    unfold MemberManager.op_remove
    cases hf : FactionDBManager.find_faction s inp with
    | error e => simp
    | ok f =>
      by_cases hp : DefaultFaction.has_permission s f ch (pystr "roster") <;> simp [hp]

/-- Witness for C5: a leader-capable actor on a concrete state. -/
theorem op_remove_always_raises_witness :
    MemberManager.op_remove dbSub adminChar (some (.byRef facTop)) = .error .attributeError :=
  (op_remove_always_raises dbSub adminChar (some (.byRef facTop))).1 facTop (by decide) (by decide)

/-- C4: the invitation workflow cannot run as claimed.  `op_extend` raises
`AttributeError` for every authorized request (managers.py line 580 reads
`faction.members`, a related name models.py never defines), so no invitation
is ever created; `op_accept` fails with status 400 when no invitation exists,
and raises the same `AttributeError` when one does, so no member is ever
created and no invitation consumed. -/
theorem invitation_workflow_crashes (s : DB) (ch : Character) (inp : Option FactionInput)
    (chi : Option Character) (f : Faction) (c : Character) :
    (FactionDBManager.find_faction s inp = .ok f →
      DefaultFaction.has_permission s f ch (pystr "invite") = true →
      chi = some c →
      InvitationManager.op_extend s ch inp chi = .error .attributeError)
    ∧ (FactionDBManager.find_faction s inp = .ok f →
      invitationsFor s f.id ch.id = [] →
      InvitationManager.op_accept s ch inp = .error .badRequest)
    ∧ (FactionDBManager.find_faction s inp = .ok f →
      invitationsFor s f.id ch.id ≠ [] →
      InvitationManager.op_accept s ch inp = .error .attributeError) := by
  refine ⟨?_, ?_, ?_⟩
  · intro hf hperm hc
    unfold InvitationManager.op_extend
    rw [hf, hc]
    simp [hperm, InvitationManager.find_character]
  · intro hf hinv
    unfold InvitationManager.op_accept
    rw [hf]
    simp [hinv]
  · intro hf hinv
    unfold InvitationManager.op_accept
    rw [hf]
    cases hl : (invitationsFor s f.id ch.id) with
    | nil => exact absurd hl hinv
    | cons a l => simp [hl]

/-- Witness for C4: concrete extend and accept attempts on `dbInv`. -/
theorem invitation_workflow_crashes_witness :
    InvitationManager.op_extend dbInv adminChar (some (.byRef facTop)) (some plainChar)
        = .error .attributeError
    ∧ InvitationManager.op_accept dbInv adminChar (some (.byRef facTop)) = .error .badRequest
    ∧ InvitationManager.op_accept dbInv plainChar (some (.byRef facTop))
        = .error .attributeError :=
  ⟨(invitation_workflow_crashes dbInv adminChar (some (.byRef facTop)) (some plainChar) facTop
      plainChar).1 (by decide) (by decide) rfl,
   (invitation_workflow_crashes dbInv adminChar (some (.byRef facTop)) (some plainChar) facTop
      plainChar).2.1 (by decide) (by decide),
   (invitation_workflow_crashes dbInv plainChar (some (.byRef facTop)) (some plainChar) facTop
      plainChar).2.2 (by decide) (by decide)⟩

/-- C8: `FactionDBManager` defines no `delete` operation handler, so the
operation `CmdFDelete` dispatches does not exist; the `is_deleted` visibility
rule itself does propagate deletion from a parent to its children. -/
theorem faction_delete_missing_and_visibility :
    cmdFDeleteOperation ∉ factionManagerOperations
    ∧ (∀ s fuel (f pf : Faction), f.parent = some pf.id →
        lookupFaction s pf.id = some pf →
        DefaultFaction.is_deleted s fuel pf = true →
        DefaultFaction.is_deleted s (fuel + 1) f = true) := by
  constructor
  · decide
  · intro s fuel f pf hp hl hd
    unfold DefaultFaction.is_deleted
    by_cases hdel : f.deleted
    · simp [hdel]
    · simp [hdel, hp, hl, hd]

/-- Witness for C8: the live child of the soft-deleted `facGhost` is itself
considered deleted. -/
theorem faction_delete_missing_and_visibility_witness :
    DefaultFaction.is_deleted dbGhost 1 facGhostChild = true :=
  faction_delete_missing_and_visibility.2 dbGhost 0 facGhostChild facGhost (by decide)
    (by decide) (by decide)

/-- C3 counterexample: resolution never filters on the soft-delete flag.  The
deleted `facGhost` is returned both by id lookup and by path resolution,
where the claim requires `NotFound` and that a soft-deleted faction is never
returned. -/
theorem deleted_faction_resolved_counterexample :
    FactionDBManager.find_faction dbGhost (some (.byId 0)) = .ok facGhost
    ∧ FactionDBManager.find_faction dbGhost (some (.byPath (pystr "gho"))) = .ok facGhost
    ∧ facGhost.deleted = true := by
  decide

/-- C6 counterexample: starting from an empty database, `op_create` installs
the default ranks 1-5, and a leader-capable actor can then renumber rank 1 to
6 through `op_number` (which has no protection for numbers 1 and 2), leaving
the faction with no rank numbered 1. -/
theorem rank_one_renumber_counterexample :
    (FactionDBManager.op_create dbEmpty adminChar (some (pystr "Alpha")) none).map
        (fun p => (factionRanks p.1 p.2).map Rank.number) = .ok [1, 2, 3, 4, 5]
    ∧ ((FactionDBManager.op_create dbEmpty adminChar (some (pystr "Alpha")) none).bind
        (fun p => RankManager.op_number p.1 adminChar (some (.byId p.2)) (some 1) (some 6))).map
        (fun s2 => ((factionRanks s2 0).filter (fun r => r.number == 1)).isEmpty) = .ok true := by
  decide

/-! Canonical-form lemmas for permission tokens (C10). -/

theorem isUpperCp_iff (n : Nat) : isUpperCp n = true ↔ 65 ≤ n ∧ n ≤ 90 := by
  simp [isUpperCp]

theorem isSpaceCp_iff (n : Nat) : isSpaceCp n = true ↔ n = 32 ∨ (9 ≤ n ∧ n ≤ 13) := by
  simp [isSpaceCp]

theorem lowerCp_not_upper (c : Nat) : isUpperCp (lowerCp c) = false := by
  rw [Bool.eq_false_iff]
  intro hu
  rw [isUpperCp_iff] at hu
  unfold lowerCp at hu
  by_cases h : isUpperCp c = true
  · rw [if_pos h] at hu
    rw [isUpperCp_iff] at h
    omega
  · rw [if_neg h] at hu
    exact h ((isUpperCp_iff c).mpr hu)

theorem lowerCp_space (c : Nat) : isSpaceCp (lowerCp c) = isSpaceCp c := by
  unfold lowerCp
  by_cases h : isUpperCp c = true
  · rw [if_pos h]
    rw [isUpperCp_iff] at h
    have h1 : isSpaceCp (c + 32) = false := by
      rw [Bool.eq_false_iff]
      intro hs
      rw [isSpaceCp_iff] at hs
      omega
    have h2 : isSpaceCp c = false := by
      rw [Bool.eq_false_iff]
      intro hs
      rw [isSpaceCp_iff] at hs
      omega
    rw [h1, h2]
  · rw [if_neg h]

theorem head_dropWhile_not (p : Nat → Bool) (l : PyStr) (c : Nat)
    (h : (l.dropWhile p).head? = some c) : p c = false := by
  induction l with
  | nil => simp at h
  | cons a t ih =>
    rw [List.dropWhile_cons] at h
    by_cases hp : p a = true
    · rw [if_pos hp] at h
      exact ih h
    · rw [if_neg hp] at h
      simp at h
      rw [← h]
      exact Bool.eq_false_iff.mpr hp

theorem getLast_dropWhile (p : Nat → Bool) (l : PyStr) (h : l.dropWhile p ≠ []) :
    (l.dropWhile p).getLast? = l.getLast? := by
  induction l with
  | nil => simp at h
  | cons a t ih =>
    rw [List.dropWhile_cons] at h ⊢
    by_cases hp : p a = true
    · rw [if_pos hp] at h ⊢
      rw [ih h]
      cases t with
      | nil => rw [List.dropWhile_nil] at h; exact absurd rfl h
      | cons b t2 => rw [List.getLast?_cons_cons]
    · rw [if_neg hp]

theorem pyStrip_getLast_not_space (t : PyStr) (c : Nat)
    (h : (pyStrip t).getLast? = some c) : isSpaceCp c = false := by
  unfold pyStrip at h
  rw [List.getLast?_reverse] at h
  exact head_dropWhile_not _ _ _ h

theorem pyStrip_head_not_space (t : PyStr) (c : Nat)
    (h : (pyStrip t).head? = some c) : isSpaceCp c = false := by
  unfold pyStrip at h
  rw [List.head?_reverse] at h
  have hne : (t.dropWhile isSpaceCp).reverse.dropWhile isSpaceCp ≠ [] := by
    intro he
    rw [he] at h
    simp at h
  rw [getLast_dropWhile _ _ hne, List.getLast?_reverse] at h
  exact head_dropWhile_not _ _ _ h

theorem canonPerm_isCanon (x : PyStr) (h : canonPerm x ≠ []) : isCanonToken (canonPerm x) := by
  refine ⟨h, ?_, ?_, ?_⟩
  · intro c hc
    unfold canonPerm pyLower at hc
    obtain ⟨d, _, rfl⟩ := List.mem_map.mp hc
    exact lowerCp_not_upper d
  · intro c hc
    unfold canonPerm pyLower at hc
    rw [List.head?_map] at hc
    cases hd : (pyStrip x).head? with
    | none => rw [hd] at hc; simp at hc
    | some d =>
      rw [hd] at hc
      simp at hc
      rw [← hc, lowerCp_space]
      exact pyStrip_head_not_space x d hd
  · intro c hc
    unfold canonPerm pyLower at hc
    rw [List.getLast?_map] at hc
    cases hd : (pyStrip x).getLast? with
    | none => rw [hd] at hc; simp at hc
    | some d =>
      rw [hd] at hc
      simp at hc
      rw [← hc, lowerCp_space]
      exact pyStrip_getLast_not_space x d hd

theorem mem_join_permissions_isCanon (l : List (Finset PyStr)) (t : PyStr)
    (h : t ∈ DefaultFaction.join_permissions l) : isCanonToken t := by
  unfold DefaultFaction.join_permissions at h
  rw [Finset.mem_filter] at h
  obtain ⟨hmem, hne⟩ := h
  obtain ⟨x, _, rfl⟩ := Finset.mem_image.mp hmem
  exact canonPerm_isCanon x hne

/-- C10: every token in `all_permissions` and in `get_effective_permissions`
is nonempty, free of upper-case letters, and has no leading or trailing
whitespace — both sets canonicalize with `val.strip().lower()` on every read. -/
theorem permission_tokens_canonical (s : DB) (f : Faction) (ch : Character) :
    (∀ t ∈ DefaultFaction.all_permissions f, isCanonToken t)
    ∧ (∀ t ∈ DefaultFaction.get_effective_permissions s f ch, isCanonToken t) := by
  have hall : ∀ t ∈ DefaultFaction.all_permissions f, isCanonToken t := by
    intro t ht
    exact mem_join_permissions_isCanon _ _ ht
  refine ⟨hall, ?_⟩
  intro t ht
  unfold DefaultFaction.get_effective_permissions at ht
  simp only [] at ht
  split at ht
  · exact hall t ht
  · split at ht
    · split at ht
      · exact hall t ht
      · exact mem_join_permissions_isCanon _ _ (Finset.mem_inter.mp ht).1
    · split at ht
      · exact mem_join_permissions_isCanon _ _ (Finset.mem_inter.mp ht).1
      · exact absurd ht (Finset.not_mem_empty t)

/-- Witness for C10: a concrete token of a concrete faction is canonical. -/
theorem permission_tokens_canonical_witness : isCanonToken (pystr "roster") :=
  (permission_tokens_canonical dbSub facTop plainChar).1 (pystr "roster") (by decide)

/-! Path-resolution lemmas (C3). -/

theorem splitCp_ne_nil (sep : Nat) (l : PyStr) : splitCp sep l ≠ [] := by
  cases l with
  | nil => simp [splitCp]
  | cons c rest =>
    unfold splitCp
    cases h : splitCp sep rest with
    | nil => by_cases hc : c == sep <;> simp [hc]
    | cons a t => by_cases hc : c == sep <;> simp [hc]

theorem pmatch_nil (seg : PyStr) : pmatch seg [] = none := by
  unfold pmatch
  by_cases h : seg = [] <;> simp [h]

theorem pmatch_mem (seg : PyStr) (l : List Faction) (c : Faction)
    (h : pmatch seg l = some c) : c ∈ l := by
  unfold pmatch at h
  by_cases hs : seg = []
  · rw [if_pos hs] at h
    exact absurd h (by simp)
  · rw [if_neg hs] at h
    cases hf : l.filter (fun f => (pyLower seg).isPrefixOf (pyLower f.key)) with
    | nil => rw [hf] at h; exact absurd h (by simp)
    | cons a t =>
      cases t with
      | nil =>
        rw [hf] at h
        simp at h
        rw [← h]
        exact List.mem_of_mem_filter (hf ▸ List.mem_cons_self a [])
      | cons b t2 => rw [hf] at h; exact absurd h (by simp)

theorem resolve_rest_eq_foldlM (s : DB) (rest : List PyStr) : ∀ (c : Faction),
    (∀ f, FactionDBManager.resolve_rest s rest c = .ok f ↔
      rest.foldlM (fun cur seg => pmatch seg (childrenOf s cur.id)) c = some f)
    ∧ (rest.foldlM (fun cur seg => pmatch seg (childrenOf s cur.id)) c = none →
      FactionDBManager.resolve_rest s rest c = .error .notFound) := by
  induction rest with
  | nil =>
    intro c
    constructor
    · intro f
      simp [FactionDBManager.resolve_rest, List.foldlM]
    · intro h
      simp [List.foldlM] at h
  | cons seg rest ih =>
    intro c
    unfold FactionDBManager.resolve_rest
    rw [List.foldlM_cons]
    by_cases hemp : (childrenOf s c.id).isEmpty
    · have hnil : childrenOf s c.id = [] := by simpa using hemp
      rw [hnil, pmatch_nil]
      constructor
      · intro f
        simp [hemp]
      · intro _
        simp [hemp]
    · cases hm : pmatch seg (childrenOf s c.id) with
      | none =>
        constructor
        · intro f
          simp [hemp, hm]
        · intro _
          simp [hemp, hm]
      | some c2 =>
        constructor
        · intro f
          rw [if_neg (by simpa using hemp)]
          simp only [hm, Option.some_bind]
          exact (ih c2).1 f
        · intro h
          simp [hemp, hm]
          exact (ih c2).2 h


/-- C3 (amended): path resolution agrees with the spec-side resolver
`resolveSpecPath` (segment-by-segment case-insensitive unambiguous-prefix
matching, roots first, then children), failing `NotFound` exactly when that
resolver yields nothing; a model-instance input is returned as given; an id
input returns the stored row with that id or fails `NotFound`.  No branch
excludes soft-deleted factions. -/
theorem find_faction_matches_spec_resolution (s : DB) (p : PyStr) (n : Nat) (ff : Faction) :
    ((∀ f, FactionDBManager.find_faction s (some (.byPath p)) = .ok f ↔
        resolveSpecPath s p = some f)
      ∧ (resolveSpecPath s p = none →
          FactionDBManager.find_faction s (some (.byPath p)) = .error .notFound))
    ∧ FactionDBManager.find_faction s (some (.byRef ff)) = .ok ff
    ∧ (WF s → (FactionDBManager.find_faction s (some (.byId n)) = .ok ff ↔
        ff ∈ s.factions ∧ ff.id = n)) := by
  refine ⟨?_, rfl, ?_⟩
  · cases hsp : splitCp 47 p with
    | nil => exact absurd hsp (splitCp_ne_nil 47 p)
    | cons first rest =>
      by_cases hemp : (rootFactions s).isEmpty
      · have hnil : rootFactions s = [] := by simpa using hemp
        constructor
        · intro f
          simp [FactionDBManager.find_faction, resolveSpecPath, hsp, hnil, pmatch_nil]
        · intro _
          simp [FactionDBManager.find_faction, hsp, hnil]
      · cases hm : pmatch first (rootFactions s) with
        | none =>
          constructor
          · intro f
            simp [FactionDBManager.find_faction, resolveSpecPath, hsp, hemp, hm]
          · intro _
            simp [FactionDBManager.find_faction, hsp, hemp, hm]
        | some c =>
          have hred : FactionDBManager.find_faction s (some (.byPath p)) =
              FactionDBManager.resolve_rest s rest c := by
            simp [FactionDBManager.find_faction, hsp, hemp, hm]
          have hspec : resolveSpecPath s p =
              rest.foldlM (fun cur seg => pmatch seg (childrenOf s cur.id)) c := by
            simp [resolveSpecPath, hsp, hm]
          constructor
          · intro f
            rw [hred, hspec]
            exact (resolve_rest_eq_foldlM s rest c).1 f
          · intro h
            rw [hspec] at h
            rw [hred]
            exact (resolve_rest_eq_foldlM s rest c).2 h
  · intro hwf
    have hred : FactionDBManager.find_faction s (some (.byId n)) =
        (match s.factions.find? (fun f => f.id == n) with
         | some f => Except.ok f
         | none => Except.error OpError.notFound) := by
      simp [FactionDBManager.find_faction]
    constructor
    · intro h
      rw [hred] at h
      cases hfind : s.factions.find? (fun f => f.id == n) with
      | none =>
        rw [hfind] at h
        exact absurd h (by simp)
      | some g =>
        rw [hfind] at h
        simp at h
        subst h
        refine ⟨List.mem_of_find?_eq_some hfind, ?_⟩
        simpa using List.find?_some hfind
    · rintro ⟨hmem, hid⟩
      rw [hred]
      cases hfind : s.factions.find? (fun f => f.id == n) with
      | none =>
        rw [List.find?_eq_none] at hfind
        exact absurd (by simpa using hid) (by simpa using hfind ff hmem)
      | some g =>
        have hgmem : g ∈ s.factions := List.mem_of_find?_eq_some hfind
        have hgid : g.id = n := by simpa using List.find?_some hfind
        have hgf : g = ff :=
          List.inj_on_of_nodup_map hwf.1 hgmem hmem (by rw [hgid, hid])
        rw [hgf]

/-- Witness for C3 (amended): a concrete path and a concrete id resolve on
`dbSub`. -/
theorem find_faction_matches_spec_resolution_witness :
    FactionDBManager.find_faction dbSub (some (.byPath (pystr "alp"))) = .ok facTop
    ∧ FactionDBManager.find_faction dbSub (some (.byId 1)) = .ok facSub :=
  ⟨((find_faction_matches_spec_resolution dbSub (pystr "alp") 1 facTop).1.1 facTop).mpr
      (by decide),
   ((find_faction_matches_spec_resolution dbSub (pystr "alp") 1 facSub).2.2
      (by decide)).mpr ⟨by decide, by decide⟩⟩

/-- C6 (amended): faction creation installs ranks numbered 1 and 2 (indeed
1-5), and rank deletion fails with status 400 for any rank number at most 2
and for any rank with holding members; but renumbering carries no such
protection (see the counterexample), so the "always has ranks 1 and 2"
invariant does not survive `op_number`. -/
theorem rank_protection_amended :
    (∀ (s : DB) (actor : Character) (nm : Option PyStr) (pin : Option (Option FactionInput))
        (s2 : DB) (fid : Nat),
      FactionDBManager.op_create s actor nm pin = .ok (s2, fid) →
      1 ∈ (factionRanks s2 fid).map Rank.number ∧ 2 ∈ (factionRanks s2 fid).map Rank.number)
    ∧ (∀ (s : DB) (ch : Character) (finput : Option FactionInput) (rinput : Option Int)
        (f : Faction) (r : Rank),
      FactionDBManager.find_faction s finput = .ok f →
      DefaultFaction.is_leader s f ch = true →
      RankManager.find_rank s f.id rinput = .ok r →
      r.number ≤ 2 →
      RankManager.op_delete s ch finput rinput = .error .badRequest)
    ∧ (∀ (s : DB) (ch : Character) (finput : Option FactionInput) (rinput : Option Int)
        (f : Faction) (r : Rank),
      FactionDBManager.find_faction s finput = .ok f →
      DefaultFaction.is_leader s f ch = true →
      RankManager.find_rank s f.id rinput = .ok r →
      2 < r.number →
      holders s r.id ≠ [] →
      RankManager.op_delete s ch finput rinput = .error .badRequest) := by
  refine ⟨?_, ?_, ?_⟩
  · intro s actor nm pin s2 fid h
    unfold FactionDBManager.op_create at h
    split at h
    · exact absurd h (by simp)
    · split at h
      · exact absurd h (by simp)
      · split at h
        · exact absurd h (by simp)
        · split at h
          · exact absurd h (by simp)
          · simp only [Except.ok.injEq, Prod.mk.injEq] at h
            obtain ⟨hs2, hfid⟩ := h
            subst hs2
            subst hfid
            constructor
            · simp [FactionDBManager.at_first_save, FACTION_DEFAULT_RANKS, factionRanks,
                    List.filter_append, List.map_append]
            · simp [FactionDBManager.at_first_save, FACTION_DEFAULT_RANKS, factionRanks,
                    List.filter_append, List.map_append]
  · intro s ch finput rinput f r hf hlead hrank hn
    unfold RankManager.op_delete
    rw [hf]
    simp [hlead, hrank, hn]
  · intro s ch finput rinput f r hf hlead hrank hn hh
    unfold RankManager.op_delete
    rw [hf]
    have h2 : ¬r.number ≤ 2 := not_le.mpr hn
    have h3 : (holders s r.id).isEmpty = false := by
      cases hl : holders s r.id with
      | nil => exact absurd hl hh
      | cons a t => rfl
    simp [hlead, hrank, h2, h3]

/-- Witness for C6 (amended): creation from the empty database yields ranks 1
and 2; deleting rank 2 and the held rank 3 both fail with status 400. -/
theorem rank_protection_amended_witness :
    (1 ∈ (factionRanks db6 0).map Rank.number ∧ 2 ∈ (factionRanks db6 0).map Rank.number)
    ∧ RankManager.op_delete dbRanks adminChar (some (.byRef facTop)) (some 2)
        = .error .badRequest
    ∧ RankManager.op_delete dbRanks adminChar (some (.byRef facTop)) (some 3)
        = .error .badRequest :=
  ⟨rank_protection_amended.1 dbEmpty adminChar (some (pystr "Alpha")) none db6 0 (by decide),
   rank_protection_amended.2.1 dbRanks adminChar (some (.byRef facTop)) (some 2) facTop rkSecond
     (by decide) (by decide) (by decide) (by decide),
   rank_protection_amended.2.2 dbRanks adminChar (some (.byRef facTop)) (some 3) facTop rkOfficer
     (by decide) (by decide) (by decide) (by decide) (by decide)⟩

/-! Parent-chain lemmas for the acyclicity claim (C7). -/

theorem iterP_add (s : DB) (a b fid : Nat) :
    iterP s (a + b) fid = (iterP s a fid).bind (fun y => iterP s b y) := by
  induction a generalizing fid with
  | zero => simp [iterP]
  | succ a ih =>
    rw [Nat.succ_add]
    simp only [iterP]
    cases hp : parentOf s fid with
    | none => simp
    | some p => simp [ih]

theorem mem_ancestorIds_iff (s : DB) (fuel : Nat) : ∀ (fid x : Nat),
    x ∈ DefaultFaction.ancestorIds s fuel fid ↔
      ∃ k, 0 < k ∧ k ≤ fuel ∧ iterP s k fid = some x := by
  induction fuel with
  | zero =>
    intro fid x
    simp only [DefaultFaction.ancestorIds, List.not_mem_nil, false_iff]
    rintro ⟨k, hk0, hkle, _⟩
    omega
  | succ fuel ih =>
    intro fid x
    cases hp : parentOf s fid with
    | none =>
      simp only [DefaultFaction.ancestorIds, hp, List.not_mem_nil, false_iff]
      rintro ⟨k, hk0, hkle, hit⟩
      cases k with
      | zero => omega
      | succ m => simp [iterP, hp] at hit
    | some p =>
      simp only [DefaultFaction.ancestorIds, hp, List.mem_cons]
      constructor
      · intro hmem
        rcases hmem with h | h
        · exact ⟨1, by omega, by omega, by simp [iterP, hp, h]⟩
        · obtain ⟨k, hk0, hkle, hit⟩ := (ih p x).mp h
          refine ⟨k + 1, by omega, by omega, ?_⟩
          simp [iterP, hp, hit]
      · rintro ⟨k, hk0, hkle, hit⟩
        cases k with
        | zero => omega
        | succ m =>
          simp only [iterP, hp] at hit
          rcases Nat.eq_zero_or_pos m with hm | hm
          · subst hm
            simp [iterP] at hit
            exact Or.inl hit.symm
          · exact Or.inr ((ih p x).mpr ⟨m, hm, by omega, hit⟩)

theorem iterP_some_of_le (s : DB) (k i fid y : Nat) (h : iterP s k fid = some y) (hle : i ≤ k) :
    ∃ z, iterP s i fid = some z := by
  have hadd := iterP_add s i (k - i) fid
  rw [Nat.add_sub_cancel' hle] at hadd
  rw [hadd] at h
  cases hz : iterP s i fid with
  | none => rw [hz] at h; simp at h
  | some z => exact ⟨z, rfl⟩

theorem iterP_mem_ids (s : DB) (hwf : WF s) : ∀ (k fid y : Nat),
    iterP s k fid = some y → 0 < k → y ∈ s.factions.map Faction.id := by
  intro k
  induction k with
  | zero => intro fid y _ h0; omega
  | succ m ih =>
    intro fid y h _
    rcases Nat.eq_zero_or_pos m with hm | hm
    · subst hm
      simp only [iterP] at h
      cases hp : parentOf s fid with
      | none => rw [hp] at h; exact absurd h (by simp)
      | some p =>
        rw [hp] at h
        simp [iterP] at h
        subst h
        unfold parentOf at hp
        cases hl : lookupFaction s fid with
        | none => rw [hl] at hp; simp at hp
        | some f0 =>
          rw [hl] at hp
          simp at hp
          exact hwf.2.1 f0 (List.mem_of_find?_eq_some hl) p hp
    · simp only [iterP] at h
      cases hp : parentOf s fid with
      | none => rw [hp] at h; exact absurd h (by simp)
      | some p => rw [hp] at h; exact ih p y h hm

theorem iterP_repeat (s : DB) (hwf : WF s) (k fid x : Nat)
    (h : iterP s k fid = some x) (hk : s.factions.length < k) :
    ∃ v d, 0 < d ∧ d ≤ s.factions.length ∧ iterP s d v = some v := by
  have key : ∀ a b, 1 ≤ a → b ≤ s.factions.length + 1 → a < b →
      (iterP s a fid).getD 0 = (iterP s b fid).getD 0 →
      ∃ v d, 0 < d ∧ d ≤ s.factions.length ∧ iterP s d v = some v := by
    intro a b ha hb hab hfe
    obtain ⟨va, hva⟩ := iterP_some_of_le s k a fid x h (by omega)
    obtain ⟨vb, hvb⟩ := iterP_some_of_le s k b fid x h (by omega)
    rw [hva, hvb] at hfe
    simp only [Option.getD_some] at hfe
    subst hfe
    have hadd := iterP_add s a (b - a) fid
    rw [Nat.add_sub_cancel' (le_of_lt hab)] at hadd
    rw [hva, hvb] at hadd
    simp only [Option.some_bind] at hadd
    exact ⟨va, b - a, by omega, by omega, hadd.symm⟩
  have hmaps : ∀ i ∈ Finset.Icc 1 (s.factions.length + 1),
      (iterP s i fid).getD 0 ∈ (s.factions.map Faction.id).toFinset := by
    intro i hi
    rw [Finset.mem_Icc] at hi
    obtain ⟨z, hz⟩ := iterP_some_of_le s k i fid x h (by omega)
    rw [hz]
    simp only [Option.getD_some]
    rw [List.mem_toFinset]
    exact iterP_mem_ids s hwf i fid z hz (by omega)
  have hcard : ((s.factions.map Faction.id).toFinset).card <
      (Finset.Icc 1 (s.factions.length + 1)).card := by
    have h1 : ((s.factions.map Faction.id).toFinset).card ≤ s.factions.length := by
      calc ((s.factions.map Faction.id).toFinset).card
          ≤ (s.factions.map Faction.id).length := (s.factions.map Faction.id).toFinset_card_le
        _ = s.factions.length := List.length_map _ _
    rw [Nat.card_Icc]
    omega
  obtain ⟨i, hi, j, hj, hij, heq⟩ :=
    Finset.exists_ne_map_eq_of_card_lt_of_maps_to hcard hmaps
  rw [Finset.mem_Icc] at hi hj
  rcases Nat.lt_or_ge i j with hlt | hge
  · exact key i j (by omega) (by omega) hlt heq
  · have hlt2 : j < i := by omega
    exact key j i (by omega) (by omega) hlt2 heq.symm

theorem acyclic_of_bounded (s : DB) (hwf : WF s)
    (hb : ∀ fid ∈ s.factions.map Faction.id, ∀ k ≤ s.factions.length,
      0 < k → iterP s k fid ≠ some fid) :
    Acyclic s := by
  intro k fid hk hcyc
  rcases le_or_lt k s.factions.length with hle | hgt
  · have hfidmem : fid ∈ s.factions.map Faction.id := iterP_mem_ids s hwf k fid fid hcyc hk
    exact hb fid hfidmem k hle hk hcyc
  · obtain ⟨v, d, hd0, hdle, hcv⟩ := iterP_repeat s hwf k fid fid hcyc hgt
    have hvmem : v ∈ s.factions.map Faction.id := iterP_mem_ids s hwf d v v hcv hd0
    exact hb v hvmem d hdle hd0 hcv

theorem iterP_mem_ancestors (s : DB) (hwf : WF s) (hac : Acyclic s) (k fid x : Nat)
    (hk : 0 < k) (h : iterP s k fid = some x) :
    x ∈ DefaultFaction.ancestorIds s s.factions.length fid := by
  rcases le_or_lt k s.factions.length with hle | hgt
  · exact (mem_ancestorIds_iff s _ fid x).mpr ⟨k, hk, hle, h⟩
  · obtain ⟨v, d, hd0, _, hcv⟩ := iterP_repeat s hwf k fid x h hgt
    exact absurd hcv (hac d v hd0)

theorem iterP_avoid (s s2 : DB) (a : Nat)
    (h1 : ∀ y, y ≠ a → parentOf s2 y = parentOf s y) :
    ∀ (k x : Nat), (∀ j, j < k → iterP s2 j x ≠ some a) → iterP s2 k x = iterP s k x := by
  intro k
  induction k with
  | zero => intro x _; rfl
  | succ m ih =>
    intro x h2
    have hx : x ≠ a := by
      intro he
      exact h2 0 (by omega) (by simp [iterP, he])
    simp only [iterP]
    rw [h1 x hx]
    cases hp : parentOf s x with
    | none => rfl
    | some p =>
      apply ih p
      intro j hj hit
      apply h2 (j + 1) (by omega)
      simp only [iterP]
      rw [h1 x hx, hp]
      exact hit

theorem iterP_congr (s s2 : DB) (h : ∀ y, parentOf s2 y = parentOf s y) :
    ∀ (k x : Nat), iterP s2 k x = iterP s k x := by
  intro k
  induction k with
  | zero => intro x; rfl
  | succ m ih =>
    intro x
    simp only [iterP]
    rw [h x]
    cases hp : parentOf s x with
    | none => rfl
    | some p => exact ih p

theorem iterP_cycle_rot (s : DB) (k i x y : Nat) (hcyc : iterP s k x = some x)
    (hik : i ≤ k) (hit : iterP s i x = some y) : iterP s k y = some y := by
  have h1 := iterP_add s i (k - i) x
  rw [Nat.add_sub_cancel' hik, hcyc, hit] at h1
  simp only [Option.some_bind] at h1
  have h2 := iterP_add s (k - i) i y
  rw [Nat.sub_add_cancel hik] at h2
  rw [h2, ← h1]
  simpa using hit

theorem find?_append_of_ne (l : List Faction) (fnew : Faction) (y : Nat) (hne : fnew.id ≠ y) :
    (l ++ [fnew]).find? (fun f => f.id == y) = l.find? (fun f => f.id == y) := by
  induction l with
  | nil =>
    have h0 : (fnew.id == y) = false := by simpa using hne
    simp [List.find?, h0]
  | cons a t ih =>
    by_cases hp : (a.id == y) = true
    · simp [List.find?, hp]
    · have hp2 : (a.id == y) = false := by rwa [Bool.not_eq_true] at hp
      simp [List.find?, hp2, ih]

theorem find?_append_self (l : List Faction) (fnew : Faction)
    (hno : ∀ g ∈ l, g.id ≠ fnew.id) :
    (l ++ [fnew]).find? (fun f => f.id == fnew.id) = some fnew := by
  induction l with
  | nil => simp [List.find?]
  | cons a t ih =>
    have ha : (a.id == fnew.id) = false := by
      simpa using hno a (List.mem_cons_self a t)
    simp only [List.cons_append, List.find?, ha]
    exact ih (fun g hg => hno g (List.mem_cons_of_mem a hg))

theorem lookup_of_mem_nodup (s : DB) (hnd : (s.factions.map Faction.id).Nodup)
    (f : Faction) (hmem : f ∈ s.factions) : lookupFaction s f.id = some f := by
  unfold lookupFaction
  cases hfind : s.factions.find? (fun g => g.id == f.id) with
  | none =>
    rw [List.find?_eq_none] at hfind
    exact absurd (by simp) (hfind f hmem)
  | some g =>
    have hg : g = f :=
      List.inj_on_of_nodup_map hnd (List.mem_of_find?_eq_some hfind) hmem
        (by simpa using List.find?_some hfind)
    rw [hg]

theorem find_faction_byPath_eq (s : DB) (p : PyStr) :
    FactionDBManager.find_faction s (some (.byPath p)) =
      (match splitCp 47 p with
       | [] => .error .badRequest
       | start :: rest =>
         if (rootFactions s).isEmpty then .error .notFound
         else
           match pmatch start (rootFactions s) with
           | none => .error .notFound
           | some c => FactionDBManager.resolve_rest s rest c) := rfl

theorem find_faction_byId_eq (s : DB) (n : Nat) :
    FactionDBManager.find_faction s (some (.byId n)) =
      (match s.factions.find? (fun f => f.id == n) with
       | some f => .ok f
       | none => .error .notFound) := rfl

theorem resolve_rest_mem (s : DB) (rest : List PyStr) : ∀ (c f : Faction),
    FactionDBManager.resolve_rest s rest c = .ok f → f = c ∨ f ∈ s.factions := by
  induction rest with
  | nil =>
    intro c f h
    left
    have hcf : c = f := by simpa [FactionDBManager.resolve_rest] using h
    exact hcf.symm
  | cons seg rest ih =>
    intro c f h
    unfold FactionDBManager.resolve_rest at h
    by_cases hemp : (childrenOf s c.id).isEmpty = true
    · rw [if_pos hemp] at h
      exact absurd h (by simp)
    · rw [if_neg hemp] at h
      cases hm : pmatch seg (childrenOf s c.id) with
      | none => rw [hm] at h; exact absurd h (by simp)
      | some c2 =>
        rw [hm] at h
        rcases ih c2 f h with h2 | h2
        · right
          have hc2 : c2 ∈ s.factions := List.mem_of_mem_filter (pmatch_mem _ _ _ hm)
          rw [h2]
          exact hc2
        · exact Or.inr h2

theorem find_faction_mem (s : DB) (inp : Option FactionInput) (f : Faction)
    (hok : FactionDBManager.find_faction s inp = .ok f) (hin : inputOK s inp) :
    f ∈ s.factions := by
  cases inp with
  | none => exact absurd hok (by simp [FactionDBManager.find_faction])
  | some fi =>
    cases fi with
    | byRef g =>
      have hg : g = f := by simpa [FactionDBManager.find_faction] using hok
      rw [← hg]
      exact hin
    | byPath p =>
      rw [find_faction_byPath_eq] at hok
      cases hsp : splitCp 47 p with
      | nil => rw [hsp] at hok; exact absurd hok (by simp)
      | cons first rest =>
        rw [hsp] at hok
        simp only [] at hok
        by_cases hemp : (rootFactions s).isEmpty = true
        · rw [if_pos hemp] at hok
          exact absurd hok (by simp)
        · rw [if_neg hemp] at hok
          cases hm : pmatch first (rootFactions s) with
          | none => rw [hm] at hok; exact absurd hok (by simp)
          | some c =>
            rw [hm] at hok
            rcases resolve_rest_mem s rest c f hok with h2 | h2
            · have hc : c ∈ s.factions := List.mem_of_mem_filter (pmatch_mem _ _ _ hm)
              rw [h2]
              exact hc
            · exact h2
    | byId n =>
      rw [find_faction_byId_eq] at hok
      cases hfind : s.factions.find? (fun g => g.id == n) with
      | none => rw [hfind] at hok; exact absurd hok (by simp)
      | some g =>
        rw [hfind] at hok
        have hg : g = f := by simpa using hok
        rw [← hg]
        exact List.mem_of_find?_eq_some hfind
    | invalid => exact absurd hok (by simp [FactionDBManager.find_faction])

theorem find?_map_id (l : List Faction) (g : Faction → Faction)
    (hid : ∀ x, (g x).id = x.id) (y : Nat) :
    (l.map g).find? (fun f => f.id == y) = (l.find? (fun f => f.id == y)).map g := by
  induction l with
  | nil => rfl
  | cons a t ih =>
    by_cases hp : (a.id == y) = true
    · have hgp : ((g a).id == y) = true := by rw [hid]; exact hp
      simp [List.find?, hp, hgp]
    · have hp2 : (a.id == y) = false := by rwa [Bool.not_eq_true] at hp
      have hgp : ((g a).id == y) = false := by rw [hid]; exact hp2
      simp [List.find?, hp2, hgp, ih]

theorem setParent_parentOf (s : DB) (fid : Nat) (p : Option Nat) (f0 : Faction)
    (hl : lookupFaction s fid = some f0) (y : Nat) :
    parentOf (FactionDBManager.setParent s fid p) y = if y = fid then p else parentOf s y := by
  unfold parentOf lookupFaction FactionDBManager.setParent
  simp only []
  rw [find?_map_id _ _ (fun x => by by_cases h : (x.id == fid) = true <;> simp [h]) y]
  by_cases hy : y = fid
  · subst hy
    unfold lookupFaction at hl
    rw [hl, if_pos rfl]
    have hid : f0.id = y := by simpa using List.find?_some hl
    simp [hid]
  · rw [if_neg hy]
    cases hf : s.factions.find? (fun f => f.id == y) with
    | none => simp
    | some b =>
      have hbid : b.id = y := by simpa using List.find?_some hf
      simp [hbid, hy]

theorem setParent_ids (s : DB) (fid : Nat) (p : Option Nat) :
    (FactionDBManager.setParent s fid p).factions.map Faction.id =
      s.factions.map Faction.id := by
  show (s.factions.map _).map Faction.id = _
  suffices h : ∀ l : List Faction,
      ((l.map (fun g => if g.id == fid then { g with parent := p } else g)).map Faction.id) =
        l.map Faction.id by
    exact h s.factions
  intro l
  induction l with
  | nil => rfl
  | cons a t ih =>
    have hh : ((fun g : Faction => if g.id == fid then { g with parent := p } else g) a).id
        = a.id := by
      by_cases h : (a.id == fid) = true <;> simp [h]
    simp only [List.map_cons, hh, ih]

theorem setParent_WF (s : DB) (a : Nat) (pOpt : Option Nat) (hwf : WF s)
    (hmem_p : ∀ q, pOpt = some q → q ∈ s.factions.map Faction.id) :
    WF (FactionDBManager.setParent s a pOpt) := by
  refine ⟨?_, ?_, ?_⟩
  · rw [setParent_ids s a pOpt]
    exact hwf.1
  · intro f2 hmem p hp
    have hmem2 : f2 ∈ s.factions.map
        (fun g => if g.id == a then { g with parent := pOpt } else g) := hmem
    obtain ⟨x, hx, rfl⟩ := List.mem_map.mp hmem2
    rw [setParent_ids s a pOpt]
    by_cases hxa : (x.id == a) = true
    · rw [if_pos hxa] at hp
      exact hmem_p p hp
    · rw [if_neg hxa] at hp
      exact hwf.2.1 x hx p hp
  · intro f2 hmem
    have hmem2 : f2 ∈ s.factions.map
        (fun g => if g.id == a then { g with parent := pOpt } else g) := hmem
    obtain ⟨x, hx, rfl⟩ := List.mem_map.mp hmem2
    show _ < s.nextFactionId
    by_cases hxa : (x.id == a) = true
    · rw [if_pos hxa]
      exact hwf.2.2 x hx
    · rw [if_neg hxa]
      exact hwf.2.2 x hx

theorem rename_state_preserves (s : DB) (fid2 : Nat) (nm2 : PyStr)
    (hwf : WF s) (hac : Acyclic s) :
    WF { s with factions := (s.factions.map
          (fun g => if g.id == fid2 then { g with key := nm2 } else g)) }
    ∧ Acyclic { s with factions := (s.factions.map
          (fun g => if g.id == fid2 then { g with key := nm2 } else g)) } := by
  have hid : ∀ x : Faction,
      ((fun g : Faction => if g.id == fid2 then { g with key := nm2 } else g) x).id = x.id := by
    intro x
    by_cases h : (x.id == fid2) = true <;> simp [h]
  have hpar : ∀ x : Faction,
      ((fun g : Faction => if g.id == fid2 then { g with key := nm2 } else g) x).parent
        = x.parent := by
    intro x
    by_cases h : (x.id == fid2) = true <;> simp [h]
  have hids : ∀ l : List Faction,
      ((l.map (fun g => if g.id == fid2 then { g with key := nm2 } else g)).map Faction.id) =
        l.map Faction.id := by
    intro l
    induction l with
    | nil => rfl
    | cons b t ih => simp only [List.map_cons, hid b, ih]
  have hpo : ∀ y, parentOf { s with factions := (s.factions.map
      (fun g => if g.id == fid2 then { g with key := nm2 } else g)) } y = parentOf s y := by
    intro y
    unfold parentOf lookupFaction
    simp only []
    rw [find?_map_id _ _ hid y]
    cases hf : s.factions.find? (fun f => f.id == y) with
    | none => simp
    | some b => exact hpar b
  refine ⟨⟨?_, ?_, ?_⟩, ?_⟩
  · show ((s.factions.map _).map Faction.id).Nodup
    rw [hids]
    exact hwf.1
  · intro f2 hmem p hp
    obtain ⟨x, hx, rfl⟩ := List.mem_map.mp hmem
    show p ∈ (s.factions.map _).map Faction.id
    rw [hids]
    exact hwf.2.1 x hx p (by rw [← hpar x]; exact hp)
  · intro f2 hmem
    obtain ⟨x, hx, rfl⟩ := List.mem_map.mp hmem
    show _ < s.nextFactionId
    rw [hid x]
    exact hwf.2.2 x hx
  · intro k fid hk
    rw [iterP_congr s _ hpo k fid]
    exact hac k fid hk

theorem op_rename_preserves (s : DB) (actor : Character) (fi : Option FactionInput)
    (nm : Option PyStr) (s2 : DB)
    (hok : FactionDBManager.op_rename s actor fi nm = .ok s2)
    (hwf : WF s) (hac : Acyclic s) : WF s2 ∧ Acyclic s2 := by
  unfold FactionDBManager.op_rename at hok
  split at hok
  · exact absurd hok (by simp)
  · split at hok
    · exact absurd hok (by simp)
    · split at hok
      · exact absurd hok (by simp)
      · split at hok
        · exact absurd hok (by simp)
        · simp only [Except.ok.injEq] at hok
          subst hok
          exact rename_state_preserves s _ _ hwf hac

theorem reparent_state_preserves (s : DB) (a : Nat) (pOpt : Option Nat)
    (hwf : WF s) (hac : Acyclic s) (f0 : Faction)
    (hf0 : lookupFaction s a = some f0)
    (hmem_p : ∀ q, pOpt = some q → q ∈ s.factions.map Faction.id)
    (hne : ∀ q, pOpt = some q → q ≠ a)
    (hnanc : ∀ q, pOpt = some q → ∀ k, 0 < k → iterP s k q ≠ some a) :
    WF (FactionDBManager.setParent s a pOpt)
      ∧ Acyclic (FactionDBManager.setParent s a pOpt) := by
  refine ⟨setParent_WF s a pOpt hwf hmem_p, ?_⟩
  have hpo := setParent_parentOf s a pOpt f0 hf0
  have hold : ∀ y, y ≠ a →
      parentOf (FactionDBManager.setParent s a pOpt) y = parentOf s y := by
    intro y hy
    rw [hpo y, if_neg hy]
  have hpa : parentOf (FactionDBManager.setParent s a pOpt) a = pOpt := by
    rw [hpo a, if_pos rfl]
  intro k x hk hcyc
  by_cases hvis : ∃ i, i ≤ k ∧ iterP (FactionDBManager.setParent s a pOpt) i x = some a
  · obtain ⟨i, hik, hi⟩ := hvis
    have hcy2 : iterP (FactionDBManager.setParent s a pOpt) k a = some a :=
      iterP_cycle_rot _ k i x a hcyc hik hi
    obtain ⟨m, rfl⟩ := Nat.exists_eq_succ_of_ne_zero (Nat.pos_iff_ne_zero.mp hk)
    simp only [iterP, hpa] at hcy2
    cases hq : pOpt with
    | none =>
      subst hq
      simp at hcy2
    | some q =>
      subst hq
      have hcy3 : iterP (FactionDBManager.setParent s a (some q)) m q = some a := hcy2
      rcases Nat.eq_zero_or_pos m with hm | hm
      · subst hm
        have hqa : q = a := by simpa [iterP] using hcy3
        exact hne q rfl hqa
      · have hex : ∃ j, iterP (FactionDBManager.setParent s a (some q)) j q = some a :=
          ⟨m, hcy3⟩
        have hspec := Nat.find_spec hex
        have hmin : ∀ j, j < Nat.find hex →
            iterP (FactionDBManager.setParent s a (some q)) j q ≠ some a :=
          fun j hj => Nat.find_min hex hj
        have h0 : 0 < Nat.find hex := by
          rcases Nat.eq_zero_or_pos (Nat.find hex) with he | he
          · exfalso
            have hsp2 := hspec
            rw [he] at hsp2
            have hqa : q = a := by simpa [iterP] using hsp2
            exact hne q rfl hqa
          · exact he
        rw [iterP_avoid s _ a hold (Nat.find hex) q hmin] at hspec
        exact hnanc q rfl (Nat.find hex) h0 hspec
  · push_neg at hvis
    have havoid : ∀ j, j < k → iterP (FactionDBManager.setParent s a pOpt) j x ≠ some a :=
      fun j hj => hvis j (le_of_lt hj)
    rw [iterP_avoid s _ a hold k x havoid] at hcyc
    exact hac k x hk hcyc

theorem op_parent_preserves (s : DB) (actor : Character) (fi pi : Option FactionInput) (s2 : DB)
    (hinf : inputOK s fi) (hinp : inputOK s pi)
    (hok : FactionDBManager.op_parent s actor fi pi = .ok s2)
    (hwf : WF s) (hac : Acyclic s) : WF s2 ∧ Acyclic s2 := by
  unfold FactionDBManager.op_parent at hok
  split at hok
  · exact absurd hok (by simp)
  · split at hok
    · exact absurd hok (by simp)
    · split at hok
      · exact absurd hok (by simp)
      · split at hok
        · exact absurd hok (by simp)
        · split at hok
          · exact absurd hok (by simp)
          · split at hok
            · exact absurd hok (by simp)
            · rename_i hov x1 faction hfind x2 parent hpres hc1 hc2 hc3
              simp only [Except.ok.injEq] at hok
              subst hok
              have hmemf : faction ∈ s.factions := find_faction_mem s fi faction hfind hinf
              have hf0 : lookupFaction s faction.id = some faction :=
                lookup_of_mem_nodup s hwf.1 faction hmemf
              cases parent with
              | none =>
                exact reparent_state_preserves s faction.id none hwf hac faction hf0
                  (by intro q hq; simp at hq) (by intro q hq; simp at hq)
                  (by intro q hq; simp at hq)
              | some pf2 =>
                have hpf2mem : pf2 ∈ s.factions := by
                  by_cases hsl : pi = some (.byPath (pystr "/"))
                  · rw [if_pos hsl] at hpres
                    exact absurd hpres (by simp)
                  · rw [if_neg hsl] at hpres
                    cases hffp : FactionDBManager.find_faction s pi with
                    | error e => rw [hffp] at hpres; exact absurd hpres (by simp)
                    | ok pf3 =>
                      rw [hffp] at hpres
                      have h32 : pf3 = pf2 := by simpa using hpres
                      rw [← h32]
                      exact find_faction_mem s pi pf3 hffp hinp
                have hne2 : pf2.id ≠ faction.id := by
                  intro he
                  apply hc1
                  show (pf2.id == faction.id) = true
                  simp [he]
                have hnanc2 : ∀ k, 0 < k → iterP s k pf2.id ≠ some faction.id := by
                  intro k hk hit
                  apply hc2
                  show decide (faction.id ∈
                    DefaultFaction.ancestorIds s s.factions.length pf2.id) = true
                  exact decide_eq_true
                    (iterP_mem_ancestors s hwf hac k pf2.id faction.id hk hit)
                exact reparent_state_preserves s faction.id (some pf2.id) hwf hac faction hf0
                  (by
                    intro q hq
                    simp only [Option.some.injEq] at hq
                    rw [← hq]
                    exact List.mem_map_of_mem Faction.id hpf2mem)
                  (by
                    intro q hq
                    simp only [Option.some.injEq] at hq
                    rw [← hq]
                    exact hne2)
                  (by
                    intro q hq
                    simp only [Option.some.injEq] at hq
                    rw [← hq]
                    exact hnanc2)

theorem create_state_preserves (s : DB) (nm2 : PyStr) (pOpt : Option Nat)
    (hwf : WF s) (hac : Acyclic s)
    (hpm : ∀ q, pOpt = some q → q ∈ s.factions.map Faction.id) :
    WF (FactionDBManager.at_first_save
          { s with
            factions := (s.factions ++
              [{ id := s.nextFactionId, key := nm2, parent := pOpt,
                 deleted := false, options := DEFAULT_OPTIONS }]),
            nextFactionId := s.nextFactionId + 1 } s.nextFactionId)
      ∧ Acyclic (FactionDBManager.at_first_save
          { s with
            factions := (s.factions ++
              [{ id := s.nextFactionId, key := nm2, parent := pOpt,
                 deleted := false, options := DEFAULT_OPTIONS }]),
            nextFactionId := s.nextFactionId + 1 } s.nextFactionId) := by
  set A := s.nextFactionId with hA
  set fnew : Faction := { id := A, key := nm2, parent := pOpt, deleted := false, options := DEFAULT_OPTIONS } with hfnew
  set st2 := FactionDBManager.at_first_save
    { s with factions := (s.factions ++ [fnew]), nextFactionId := A + 1 } A with hst2
  show WF st2 ∧ Acyclic st2
  have hfac : st2.factions = s.factions ++ [fnew] := rfl
  have hnext : st2.nextFactionId = A + 1 := rfl
  have hfresh : ∀ g ∈ s.factions, g.id ≠ A := by
    intro g hg
    have hlt := hwf.2.2 g hg
    omega
  have hlk_old : ∀ y, y ≠ A → lookupFaction st2 y = lookupFaction s y := by
    intro y hy
    unfold lookupFaction
    rw [hfac]
    exact find?_append_of_ne s.factions fnew y (Ne.symm hy)
  have hlk_new : lookupFaction st2 A = some fnew := by
    unfold lookupFaction
    rw [hfac]
    exact find?_append_self s.factions fnew (fun g hg => hfresh g hg)
  have hold : ∀ y, y ≠ A → parentOf st2 y = parentOf s y := by
    intro y hy
    unfold parentOf
    rw [hlk_old y hy]
  have hpnew : parentOf st2 A = pOpt := by
    unfold parentOf
    rw [hlk_new]
    rfl
  have hvals : ∀ y p2, parentOf st2 y = some p2 → p2 ≠ A := by
    intro y p2 hp2
    by_cases hy : y = A
    · subst hy
      rw [hpnew] at hp2
      obtain ⟨g, hg, hgid⟩ := List.mem_map.mp (hpm p2 hp2)
      have hlt := hwf.2.2 g hg
      omega
    · rw [hold y hy] at hp2
      unfold parentOf at hp2
      cases hl : lookupFaction s y with
      | none => rw [hl] at hp2; simp at hp2
      | some g0 =>
        rw [hl] at hp2
        simp at hp2
        have hgmem := hwf.2.1 g0 (List.mem_of_find?_eq_some hl) p2 hp2
        obtain ⟨g, hg, hgid⟩ := List.mem_map.mp hgmem
        have hlt := hwf.2.2 g hg
        omega
  have hnoreach : ∀ k y, iterP st2 k y = some A → y = A ∧ k = 0 := by
    intro k
    induction k with
    | zero =>
      intro y h
      simp [iterP] at h
      exact ⟨h, rfl⟩
    | succ m ih =>
      intro y h
      simp only [iterP] at h
      cases hp : parentOf st2 y with
      | none => rw [hp] at h; simp at h
      | some p =>
        rw [hp] at h
        exact absurd (ih p h).1 (hvals y p hp)
  refine ⟨⟨?_, ?_, ?_⟩, ?_⟩
  · rw [hfac, List.map_append, List.nodup_append]
    refine ⟨hwf.1, by simp, ?_⟩
    intro x hx hx2
    obtain ⟨g, hg, hgid⟩ := List.mem_map.mp hx
    have hxA : x = fnew.id := by simpa using hx2
    exact hfresh g hg (by rw [hgid, hxA])
  · intro f2 hmem p hp
    rw [hfac] at hmem
    rw [hfac, List.map_append]
    rcases List.mem_append.mp hmem with hm1 | hm2
    · exact List.mem_append_left _ (hwf.2.1 f2 hm1 p hp)
    · have hf2 : f2 = fnew := by simpa using hm2
      subst hf2
      exact List.mem_append_left _ (hpm p hp)
  · intro f2 hmem
    rw [hfac] at hmem
    rw [hnext]
    rcases List.mem_append.mp hmem with hm1 | hm2
    · have hlt := hwf.2.2 f2 hm1
      omega
    · have hf2 : f2 = fnew := by simpa using hm2
      subst hf2
      show A < A + 1
      omega
  · intro k x hk hcyc
    by_cases hx : x = A
    · subst hx
      obtain ⟨m, rfl⟩ := Nat.exists_eq_succ_of_ne_zero (Nat.pos_iff_ne_zero.mp hk)
      simp only [iterP, hpnew] at hcyc
      cases hq : pOpt with
      | none => subst hq; simp at hcyc
      | some q =>
        subst hq
        have hcy3 : iterP st2 m q = some A := hcyc
        have hqA := (hnoreach m q hcy3).1
        obtain ⟨g, hg, hgid⟩ := List.mem_map.mp (hpm q rfl)
        have hlt := hwf.2.2 g hg
        omega
    · have havoid : ∀ j, j < k → iterP st2 j x ≠ some A := by
        intro j _ hj
        exact hx (hnoreach j x hj).1
      rw [iterP_avoid s st2 A hold k x havoid] at hcyc
      exact hac k x hk hcyc

theorem op_create_preserves (s : DB) (actor : Character) (nm : Option PyStr)
    (pin : Option (Option FactionInput)) (s2 : DB) (fid : Nat)
    (hin : ∀ p2, pin = some p2 → inputOK s p2)
    (hok : FactionDBManager.op_create s actor nm pin = .ok (s2, fid))
    (hwf : WF s) (hac : Acyclic s) : WF s2 ∧ Acyclic s2 := by
  unfold FactionDBManager.op_create at hok
  split at hok
  · exact absurd hok (by simp)
  · split at hok
    · exact absurd hok (by simp)
    · split at hok
      · exact absurd hok (by simp)
      · split at hok
        · exact absurd hok (by simp)
        · rename_i hov x1 name hname x2 parent hpres hconf
          simp only [Except.ok.injEq, Prod.mk.injEq] at hok
          obtain ⟨hs2, hfid⟩ := hok
          subst hs2
          have hpmem : ∀ pf, parent = some pf → pf ∈ s.factions := by
            intro pf hpf
            subst hpf
            cases hpin : pin with
            | none =>
              rw [hpin] at hpres
              exact absurd hpres (by simp)
            | some pin2 =>
              rw [hpin] at hpres
              have hpres2 : (match FactionDBManager.find_faction s pin2 with
                  | Except.error e => Except.error e
                  | Except.ok pf2 => Except.ok (some pf2)) = Except.ok (some pf) := hpres
              cases hff : FactionDBManager.find_faction s pin2 with
              | error e =>
                rw [hff] at hpres2
                exact absurd hpres2 (by simp)
              | ok pf3 =>
                rw [hff] at hpres2
                have h4 : pf3 = pf := by simpa using hpres2
                rw [← h4]
                exact find_faction_mem s pin2 pf3 hff (hin pin2 hpin)
          have hpm : ∀ q, Option.map Faction.id parent = some q →
              q ∈ s.factions.map Faction.id := by
            intro q hq
            cases hp2 : parent with
            | none => rw [hp2] at hq; simp at hq
            | some pf =>
              rw [hp2] at hq
              simp at hq
              rw [← hq]
              exact List.mem_map_of_mem Faction.id (hpmem pf hp2)
          exact create_state_preserves s name (Option.map Faction.id parent) hwf hac hpm

theorem faction_step_preserves (s s2 : DB) (hstep : FactionStep s s2)
    (hwf : WF s) (hac : Acyclic s) : WF s2 ∧ Acyclic s2 := by
  cases hstep with
  | create actor nm pin s2x fid hin hok =>
    exact op_create_preserves s actor nm pin s2 fid hin hok hwf hac
  | rename actor fi nm s2x hok =>
    exact op_rename_preserves s actor fi nm s2 hok hwf hac
  | reparent actor fi pi s2x hinf hinp hok =>
    exact op_parent_preserves s actor fi pi s2 hinf hinp hok hwf hac

/-- C7: starting from any well-formed acyclic state, every sequence of faction
create, rename and re-parent operations preserves well-formedness and
acyclicity of the parent graph — so no faction is ever its own ancestor (the
spec's delete has no handler and no other operation touches the tree shape);
and `op_parent` fails with status 400 whenever the proposed parent resolves to
the faction itself or to one of its descendants. -/
theorem faction_tree_acyclic :
    (∀ (s s2 : DB), WF s → Acyclic s → Relation.ReflTransGen FactionStep s s2 →
      WF s2 ∧ Acyclic s2)
    ∧ (∀ (s : DB) (actor : Character) (fi pi : Option FactionInput) (f q : Faction),
      WF s → Acyclic s →
      FactionDBManager.check_override actor = true →
      FactionDBManager.find_faction s fi = .ok f →
      pi ≠ some (.byPath (pystr "/")) →
      FactionDBManager.find_faction s pi = .ok q →
      (q.id = f.id ∨ ∃ k, 0 < k ∧ iterP s k q.id = some f.id) →
      FactionDBManager.op_parent s actor fi pi = .error .badRequest) := by
  constructor
  · intro s s2 hwf hac hchain
    induction hchain with
    | refl => exact ⟨hwf, hac⟩
    | tail hsteps hstep ih =>
      exact faction_step_preserves _ _ hstep ih.1 ih.2
  · intro s actor fi pi f q hwf hac hov hff hsl hfq hdesc
    have h1 : FactionDBManager.op_parent s actor fi pi =
        (match (if pi = some (.byPath (pystr "/")) then Except.ok (none : Option Faction)
               else match FactionDBManager.find_faction s pi with
                    | .error e => Except.error e
                    | .ok pf => Except.ok (some pf)) with
         | .error e => Except.error e
         | .ok parent =>
           if (match parent with
               | some pf => pf.id == f.id
               | none => false) = true then Except.error .badRequest
           else if (match parent with
               | some pf => decide (f.id ∈ DefaultFaction.ancestorIds s s.factions.length pf.id)
               | none => false) = true then Except.error .badRequest
           else if DefaultFaction.contains_sub_faction s (s.factions.length + 1) f.id
                     (parent.map Faction.id) = true then Except.error .badRequest
           else .ok (FactionDBManager.setParent s f.id (parent.map Faction.id))) := by
      unfold FactionDBManager.op_parent
      rw [hov, hff]
      exact rfl
    have hpar : (if pi = some (.byPath (pystr "/")) then Except.ok (none : Option Faction)
               else match FactionDBManager.find_faction s pi with
                    | .error e => Except.error e
                    | .ok pf => Except.ok (some pf)) = Except.ok (some q) := by
      rw [if_neg hsl, hfq]
    rw [h1, hpar]
    show (if (q.id == f.id) = true then Except.error OpError.badRequest
          else if (decide (f.id ∈ DefaultFaction.ancestorIds s s.factions.length q.id)) = true
            then Except.error OpError.badRequest
          else if DefaultFaction.contains_sub_faction s (s.factions.length + 1) f.id
                    ((some q).map Faction.id) = true then Except.error OpError.badRequest
          else .ok (FactionDBManager.setParent s f.id ((some q).map Faction.id)))
        = Except.error OpError.badRequest
    rcases hdesc with heq | ⟨k, hk, hit⟩
    · rw [if_pos (by simp [heq])]
    · by_cases hqf : (q.id == f.id) = true
      · rw [if_pos hqf]
      · rw [if_neg hqf]
        rw [if_pos (decide_eq_true (iterP_mem_ancestors s hwf hac k q.id f.id hk hit))]

/-- Witness for C7: the two-faction state `dbSub` is well formed and acyclic
along the empty operation sequence, and re-parenting `facTop` under its own
child `facSub` fails with status 400. -/
theorem faction_tree_acyclic_witness :
    (WF dbSub ∧ Acyclic dbSub)
    ∧ FactionDBManager.op_parent dbSub adminChar (some (.byRef facTop)) (some (.byRef facSub))
        = .error .badRequest :=
  ⟨faction_tree_acyclic.1 dbSub dbSub (by decide)
      (acyclic_of_bounded dbSub (by decide) (by decide)) Relation.ReflTransGen.refl,
   faction_tree_acyclic.2 dbSub adminChar (some (.byRef facTop)) (some (.byRef facSub))
      facTop facSub (by decide) (acyclic_of_bounded dbSub (by decide) (by decide))
      (by decide) (by decide) (by decide) (by decide)
      (Or.inr ⟨1, by decide, by decide⟩)⟩
